import Mathlib

/-!
# agent-os: a shallow embedding of the engine executor, the model-name normalizer,
# the voting cache and the fan-out stage

Conventions of the embedding.

* A Go `string` is a `String`; the functions of package `strings` that the source
  calls are defined on the character list.  The source slices by byte offsets that are
  always the length of a whole piece (a path segment, `".gguf"`, `"/"`), and the byte `/`
  never occurs inside a multi-byte character, so cutting by characters cuts at the same
  places.
* A Go slice is a `List`; a `nil` slice is `[]` except where the source tells the two
  apart (`parsedResponse.Data == nil`), where it is an `Option`.
* A pointer or channel that the source compares with `nil` is an `Option`
  (`serverResult`, the entries of `GetCompletionResponse`, `job.ResEmbeddings`,
  `Vector.Model`); a pointer that the source dereferences without ever testing it
  (`inferenceEngine`, the entries of `batch`, `job.Req`) is the value itself.
* A run-time panic (index out of range, nil dereference) is an explicit outcome.
* Channel sends are recorded, in program order, in a list carried by the result; a send
  is taken to complete (a receiver or buffer space is there), and calls that share the
  global vote cache run one after the other.
* `float32`/`float64` arithmetic and the library calls `strconv.ParseFloat`,
  `json.Unmarshal`, `tools.ParseJSON`, `engines.GenerateMessageId`,
  `RunCompletionRequest`, and the network itself are parameters of the functions that
  use them.
-/

namespace AgentOS

/-! ## Package `strings` -/

namespace strings

/-- Go `strings.HasSuffix(s, suffix)`. -/
def HasSuffix (s suffix : String) : Bool :=
  suffix.data.isSuffixOf s.data

/-- Go `strings.Contains(s, "/")`, for a separator of one character. -/
def Contains (s : String) (sep : Char) : Bool :=
  s.data.contains sep

/-- Splitting of a character list at every occurrence of `sep`. -/
def splitChars (sep : Char) : List Char → List (List Char)
  | [] => [[]]
  | c :: cs =>
    if c = sep then [] :: splitChars sep cs
    else
      match splitChars sep cs with
      | [] => [[c]]
      | p :: ps => (c :: p) :: ps

/-- Go `strings.Split(s, "/")`, for a separator of one character: all the pieces between
occurrences of the separator, one more than the number of separators. -/
def Split (s : String) (sep : Char) : List String :=
  (splitChars sep s.data).map String.mk

/-- Joining of character lists with `sep` between consecutive pieces. -/
def joinChars (sep : Char) : List (List Char) → List Char
  | [] => []
  | [p] => p
  | p :: q :: ps => p ++ sep :: joinChars sep (q :: ps)

/-- Go `strings.Join(parts, "/")`, for a separator of one character. -/
def Join (parts : List String) (sep : Char) : String :=
  String.mk (joinChars sep (parts.map String.data))

end strings

/-- Go `len(s)`, counted in characters. -/
def len (s : String) : Nat := s.data.length

/-- Go `s[:n]`. -/
def sliceTo (s : String) (n : Nat) : String := String.mk (s.data.take n)

/-- Go `parts[len(parts)-1]` on a slice of strings (the empty string stands for the
out-of-range case, which `strings.Split` never produces). -/
def lastPart (parts : List String) : String := parts.getLastD ""

/-! ## `engines/inference-engines.go`: the model-name normalizer -/

/-- The function `parseModelName` of `engines/inference-engines.go`. -/
def parseModelName (s : String) : String :=
  if strings.HasSuffix s ".gguf" then
    let modelName : String :=
      if strings.Contains s '/' then
        let parts := strings.Split s '/'
        if parts.length > 2 then
          let modelName := strings.Join (parts.drop (parts.length - 3)) '/'
          sliceTo modelName (len modelName - len (lastPart parts))
        else
          lastPart parts
      else
        s
    let modelName : String :=
      if strings.HasSuffix modelName ".gguf" then sliceTo modelName (len modelName - 5)
      else modelName
    let modelName : String :=
      if strings.HasSuffix modelName "/" then sliceTo modelName (len modelName - 1)
      else modelName
    modelName
  else
    s

/-! ## Run-time outcomes -/

/-- How a Go function call ends: it returns its values, or the goroutine panics. -/
inductive Outcome (α : Type) where
  | returned (values : α)
  | panicked (reason : String)
deriving DecidableEq

/-! ## `engines/embeddings-request.go`: batched embeddings execution -/

/-- The fields of `GenerationSettings` that the embedded code sets or reads
(`Temperature`, a float that no embedded function reads, is left out). -/
structure GenerationSettings where
  RawPrompt : String
  MaxRetries : Int
deriving DecidableEq

/-- The type `vectors.Vector`: the numbers and a pointer to the model name. -/
structure Vector (F64 : Type) where
  VecF64 : List F64
  Model : Option String
deriving DecidableEq

/-- The fields of `JobQueueTask` used by the embeddings executor: the request and the
result channel `ResEmbeddings`, which may be `nil`.  A channel is named by a number. -/
structure JobQueueTask where
  Req : GenerationSettings
  ResEmbeddings : Option Nat
deriving DecidableEq

/-- The record `RemoteInferenceEngine` (`Performance`, a float32, and `LeasedAt`, a
time stamp, are not read by the embedded functions and are left out). -/
structure RemoteInferenceEngine where
  EndpointUrl : String
  EmbeddingsEndpointUrl : String
  MaxBatchSize : Int
  MaxRequests : Int
  Models : List String
  RequestsServed : Nat
  TimeConsumed : Int
  TokensProcessed : Nat
  TokensGenerated : Nat
  PromptTokens : Nat
  Busy : Bool
  EmbeddingsDims : Option Nat
  CompletionFailed : Bool
  EmbeddingsFailed : Bool
deriving DecidableEq

/-- One element of the `data` array of the embeddings response. -/
structure embeddingsEntry (F64 : Type) where
  Embedding : List F64
deriving DecidableEq

/-- The local type `embeddingsResponse`; `Data` is `none` for a `nil` slice (the
`data` key absent or `null`) and `some []` for an empty array. -/
structure embeddingsResponse (F64 : Type) where
  Data : Option (List (embeddingsEntry F64))
  Model : String
deriving DecidableEq

/-- What `client.Post` gives back: an error, or a response with its status code and the
result of reading its body with `io.ReadAll`. -/
inductive HttpResult where
  | failed (err : String)
  | response (StatusCode : Int) (body : Except String String)

/-- The world outside the executor: the network (`Post`, applied to the endpoint and to
the `input` list of the marshalled command) and `json.Unmarshal` into
`embeddingsResponse`. -/
structure Transport (F64 : Type) where
  Post : String → List String → HttpResult
  Unmarshal : String → Except String (embeddingsResponse F64)

/-- The errors that `RunEmbeddingsRequest` returns, one per `return nil, err` site that
can carry a non-nil error. -/
inductive EmbeddingsError where
  | emptyBatch
  | endpointNotConfigured
  | post (err : String)
  | httpCode (StatusCode : Int)
  | readBody (err : String)
  | unmarshal (err : String)
deriving DecidableEq

/-- A send `job.ResEmbeddings <- results[idx]`: the loop index, the channel, the vector. -/
structure EmbeddingSend (F64 : Type) where
  task : Nat
  channel : Nat
  value : Vector F64
deriving DecidableEq

/-- State of the delivery loop of `RunEmbeddingsRequest`: the entries of `results`
filled so far, the sends made so far, and whether indexing `Data` faulted. -/
structure DeliverState (F64 : Type) where
  results : List (Vector F64)
  sent : List (EmbeddingSend F64)
  faulted : Bool
deriving DecidableEq

/-- The loop `for idx, job := range batch` of `RunEmbeddingsRequest`, from index `idx`
on: `Data[idx]` is read first (an index out of range stops everything), then the
vector is stored and, when the task has a channel, sent. -/
def deliverLoop {F64 : Type} (data : List (embeddingsEntry F64)) (parsedModelName : String) :
    Nat → List JobQueueTask → DeliverState F64 → DeliverState F64
  | _, [], st => st
  | idx, job :: rest, st =>
    match data[idx]? with
    | none => { st with faulted := true }
    | some entry =>
      let v : Vector F64 := { VecF64 := entry.Embedding, Model := some parsedModelName }
      let sent :=
        match job.ResEmbeddings with
        | some ch => st.sent ++ [{ task := idx, channel := ch, value := v }]
        | none => st.sent
      deliverLoop data parsedModelName (idx + 1) rest
        { results := st.results ++ [v], sent := sent, faulted := false }

/-- A run of `RunEmbeddingsRequest`: how the call ended (the returned pair
`(results, err)`, a `nil` slice or error being `none`), the sends made on result
channels, and the network calls made (endpoint and `input` list). -/
structure EmbeddingsRun (F64 : Type) where
  outcome : Outcome (Option (List (Vector F64)) × Option EmbeddingsError)
  sent : List (EmbeddingSend F64)
  posts : List (String × List String)

/-- The function `RunEmbeddingsRequest` of `engines/embeddings-request.go`. -/
def RunEmbeddingsRequest {F64 : Type} (net : Transport F64)
    (inferenceEngine : RemoteInferenceEngine) (batch : List JobQueueTask) :
    EmbeddingsRun F64 :=
  if batch.length = 0 then
    { outcome := .returned (none, some .emptyBatch), sent := [], posts := [] }
  else if inferenceEngine.EmbeddingsEndpointUrl = "" then
    { outcome := .returned (none, some .endpointNotConfigured), sent := [], posts := [] }
  else
    let promptBodies := batch.map (fun b => b.Req.RawPrompt)
    let posts := [(inferenceEngine.EmbeddingsEndpointUrl, promptBodies)]
    match net.Post inferenceEngine.EmbeddingsEndpointUrl promptBodies with
    | .failed err => { outcome := .returned (none, some (.post err)), sent := [], posts := posts }
    | .response StatusCode body =>
      if StatusCode ≠ 200 then
        { outcome := .returned (none, some (.httpCode StatusCode)), sent := [], posts := posts }
      else
        match body with
        | .error err =>
          { outcome := .returned (none, some (.readBody err)), sent := [], posts := posts }
        | .ok result =>
          match net.Unmarshal result with
          | .error err =>
            { outcome := .returned (none, some (.unmarshal err)), sent := [], posts := posts }
          | .ok parsedResponse =>
            match parsedResponse.Data with
            | none =>
              -- `err != nil || parsedResponse.Data == nil` holds by its second half:
              -- `return nil, err` with `err == nil`
              { outcome := .returned (none, none), sent := [], posts := posts }
            | some data =>
              let parsedModelName := parseModelName parsedResponse.Model
              let st := deliverLoop data parsedModelName 0 batch
                { results := [], sent := [], faulted := false }
              if st.faulted then
                { outcome := .panicked "index out of range", sent := st.sent, posts := posts }
              else
                { outcome := .returned (some st.results, none), sent := st.sent, posts := posts }

/-- The vector built for one response entry. -/
def entryVector {F64 : Type} (parsedModelName : String) (e : embeddingsEntry F64) :
    Vector F64 :=
  { VecF64 := e.Embedding, Model := some parsedModelName }

/-- The sends expected for loop index `i`: one, when the task has a channel. -/
def sendsOfTask {F64 : Type} (data : List (embeddingsEntry F64)) (parsedModelName : String)
    (batch : List JobQueueTask) (i : Nat) : List (EmbeddingSend F64) :=
  match batch[i]?, data[i]? with
  | some job, some e =>
    match job.ResEmbeddings with
    | some ch => [{ task := i, channel := ch, value := entryVector parsedModelName e }]
    | none => []
  | _, _ => []

/-! ## `engines/inference-engines.go`: the bootstrap of an engine -/

/-- The canary completion task of `StartInferenceEngine`. -/
def canaryCompletionTask : JobQueueTask :=
  { Req := { RawPrompt := "### Instruction\nProvide an answer. 2 + 2 = ?\n### Assistant: ",
             MaxRetries := 1 },
    ResEmbeddings := none }

/-- The canary embeddings task of `StartInferenceEngine`: no result channel. -/
def canaryEmbeddingsTask : JobQueueTask :=
  { Req := { RawPrompt := "Hello world", MaxRetries := 1 }, ResEmbeddings := none }

/-- The loop `for idx, model := range engine.Models` of `StartInferenceEngine`: the first
entry equal to the new name or empty is overwritten and the loop breaks; `none` when the
loop ends with `added` still false. -/
def replaceFirstModel (parsedModelName : String) : List String → Option (List String)
  | [] => none
  | model :: rest =>
    if model = parsedModelName ∨ model = "" then some (parsedModelName :: rest)
    else (replaceFirstModel parsedModelName rest).map (fun ms => model :: ms)

/-- The update of `engine.Models` in `StartInferenceEngine`: overwrite in the loop, or
append when nothing was overwritten. -/
def upsertModel (parsedModelName : String) (models : List String) : List String :=
  match replaceFirstModel parsedModelName models with
  | some ms => ms
  | none => models ++ [parsedModelName]

/-- A run of `StartInferenceEngine`: how it ended, the engine record after it, what the
canary embeddings call returned as `cEmb`, and the number of signals sent on `done`. -/
structure StartRun (F64 : Type) where
  outcome : Outcome Unit
  engine : RemoteInferenceEngine
  cEmb : Option (List (Vector F64))
  done : Nat

/-- The function `StartInferenceEngine` of `engines/inference-engines.go`.
`RunCompletionRequest`, which is not among the embedded sources, is a parameter: it gives
the engine record after the call and the error, if any. -/
def StartInferenceEngine {F64 : Type} (net : Transport F64)
    (RunCompletionRequest :
      RemoteInferenceEngine → List JobQueueTask → RemoteInferenceEngine × Option String)
    (engine : RemoteInferenceEngine) : StartRun F64 :=
  let completion := RunCompletionRequest engine [canaryCompletionTask]
  let engine : RemoteInferenceEngine :=
    if completion.2 ≠ none then { completion.1 with CompletionFailed := true }
    else completion.1
  match (RunEmbeddingsRequest net engine [canaryEmbeddingsTask]).outcome with
  | .panicked reason => { outcome := .panicked reason, engine := engine, cEmb := none, done := 0 }
  | .returned (cEmb, err) =>
    let engine : RemoteInferenceEngine :=
      if err ≠ none then { engine with EmbeddingsFailed := true } else engine
    let engine : RemoteInferenceEngine :=
      match cEmb with
      | some (first :: _) =>
        let engine : RemoteInferenceEngine :=
          match first.Model with
          | some name =>
            { engine with Models := upsertModel (parseModelName name) engine.Models }
          | none => engine
        if first.VecF64.length > 0 then
          { engine with EmbeddingsDims := some first.VecF64.length }
        else engine
      | _ => engine
    { outcome := .returned (), engine := engine, cEmb := cEmb, done := 1 }

/-! ## Package `cmds`: requests and responses of the dispatch path -/

/-- The priority classes of `borrow_engine` named by the embedded code. -/
inductive JobPriority where
  | PRIO_User
deriving DecidableEq

/-- The type `cmds.GetCompletionRequest`, with the fields the embedded code sets. -/
structure GetCompletionRequest where
  RawPrompt : String
  MinResults : Int
deriving DecidableEq

/-- The type `cmds.ClientRequest`, with the fields the embedded code sets. -/
structure ClientRequest where
  ProcessName : String
  Priority : JobPriority
  GetCompletionRequests : List GetCompletionRequest
deriving DecidableEq

/-- The type `cmds.GetCompletionResponse`: the choices of one completion group. -/
structure GetCompletionResponse where
  Choices : List String
deriving DecidableEq

/-- The type `cmds.ServerResponse`: the correlation id and the completion groups, a
slice of pointers, each of which may be `nil`. -/
structure ServerResponse where
  CorrelationId : String
  GetCompletionResponse : List (Option GetCompletionResponse)
deriving DecidableEq

/-! ## `agency/democrazy.go`: the voting cache -/

/-- The arithmetic of `float32` and the conversions into it that `VoteForAction` uses:
`float32(n)` for an integer, `float32(x)` for a float64, `+`, `/`, and
`strconv.ParseFloat(s, 32)` (`none` when it returns an error). -/
structure FloatOps (F32 F64 : Type) where
  ofInt : Int → F32
  ofFloat64 : F64 → F32
  add : F32 → F32 → F32
  div : F32 → F32 → F32
  ParseFloat : String → Option F64

/-- The dynamic values an field of the empty interface type can hold: `nil` (key absent or
`null`), the four types the type switch of `VoteForAction` names, and the other types
`json.Unmarshal` produces. -/
inductive AnyValue (F32 F64 : Type) where
  | nil
  | bool (b : Bool)
  | float32 (x : F32)
  | float64 (x : F64)
  | string (s : String)
  | int (n : Int)
  | slice
  | map
deriving DecidableEq

/-- The local type `votersResponse`. -/
structure votersResponse (F32 F64 : Type) where
  Thought : String
  Criticism : String
  Feedback : String
  Rate : AnyValue F32 F64
deriving DecidableEq

/-- The global `votesCache`, a `map[string]float32`. -/
abbrev VotesCache (F32 : Type) := String → Option F32

/-- The assignment `votesCache[key] = value`. -/
def VotesCache.set {F32 : Type} (cache : VotesCache F32) (key : String) (value : F32) :
    VotesCache F32 :=
  fun k => if k = key then some value else cache k

/-- The running sum `currentRating` and the counter `numberOfVotes`. -/
structure VoteTally (F32 : Type) where
  currentRating : F32
  numberOfVotes : Nat
deriving DecidableEq

/-- The two statements `currentRating += currentVoteRate; numberOfVotes++`. -/
def VoteTally.count {F32 F64 : Type} (ops : FloatOps F32 F64) (t : VoteTally F32)
    (currentVoteRate : F32) : VoteTally F32 :=
  { currentRating := ops.add t.currentRating currentVoteRate,
    numberOfVotes := t.numberOfVotes + 1 }

/-- The body of the inner loop of `VoteForAction` for one choice.  `ParseJSON` stands
for `tools.ParseJSON` with the `json.Unmarshal` callback.  A parse error and a string
that `strconv.ParseFloat` rejects `continue`; the type switch has no `default`, so for
any other dynamic type `currentVoteRate` keeps its zero value and the two statements
after the switch still run. -/
def voteChoice {F32 F64 : Type} (ops : FloatOps F32 F64)
    (ParseJSON : String → Except String (votersResponse F32 F64))
    (t : VoteTally F32) (choice : String) : VoteTally F32 :=
  match ParseJSON choice with
  | .error _ => t
  | .ok currentVote =>
    match currentVote.Rate with
    | .float32 x => t.count ops x
    | .float64 x => t.count ops (ops.ofFloat64 x)
    | .string s =>
      match ops.ParseFloat s with
      | none => t
      | some tmp => t.count ops (ops.ofFloat64 tmp)
    | .int n => t.count ops (ops.ofInt n)
    | _ => t.count ops (ops.ofInt 0)

/-- The outer loop of `VoteForAction` over the completion groups: a `nil` group (or one
with `nil` choices, which has none) is passed over. -/
def voteGroups {F32 F64 : Type} (ops : FloatOps F32 F64)
    (ParseJSON : String → Except String (votersResponse F32 F64)) :
    VoteTally F32 → List (Option GetCompletionResponse) → VoteTally F32
  | t, [] => t
  | t, none :: rest => voteGroups ops ParseJSON t rest
  | t, some getCompletionResponse :: rest =>
    voteGroups ops ParseJSON
      (getCompletionResponse.Choices.foldl (voteChoice ops ParseJSON) t) rest

/-- The prompt `systemMessage` after `fmt.Sprintf`. -/
def voteSystemMessage (initialGoal actionDescription : String) : String :=
  "Given goal:\n\n" ++ ("\n```\n" ++ initialGoal ++ "\n```\n") ++
  "\n\nAnd a command:\n\n" ++ ("\n```\n" ++ actionDescription ++ "\n```\n") ++
  "\n\nHow likely is executing the command will lead to achieving the goal?\n" ++
  "Respond in the JSON format:\n\x7b\n" ++
  "    \"thought\": \"thought text, which provides critics of possible solutions\",\n" ++
  "    \"criticism\": \"constructive self-criticism, question your assumptions\",\n" ++
  "    \"feedback\": \"provide your feedback on the command and it\x27s alignment to the purpose, suggest refinements here\",\n" ++
  "    \"rate\": \"rate probability on scale from 0 to 10\"\n\x7d"

/-- The request `VoteForAction` hands to `agentState.Server.RunRequest` (with a timeout
of 120 seconds). -/
def voteRequest (initialGoal actionDescription : String) : ClientRequest :=
  { ProcessName := "action-voter",
    Priority := .PRIO_User,
    GetCompletionRequests :=
      [{ RawPrompt := voteSystemMessage initialGoal actionDescription, MinResults := 5 }] }

/-- The errors that `VoteForAction` returns. -/
inductive VoteError where
  | runRequest (err : String)
  | noCompletions
deriving DecidableEq

/-- A run of `VoteForAction`: the returned pair `(rating, err)`, the cache after the
call, and the requests handed to the server, in order. -/
structure VoteRun (F32 : Type) where
  rating : F32
  err : Option VoteError
  cache : VotesCache F32
  dispatched : List ClientRequest

/-- The method `VoteForAction` of `agency/democrazy.go`.  `RunRequest` stands for
`agentState.Server.RunRequest` (an error, or the response), `cache` for the global
`votesCache` before the call. -/
def VoteForAction {F32 F64 : Type} (ops : FloatOps F32 F64)
    (RunRequest : ClientRequest → Except String ServerResponse)
    (ParseJSON : String → Except String (votersResponse F32 F64))
    (cache : VotesCache F32) (initialGoal actionDescription : String) : VoteRun F32 :=
  match cache actionDescription with
  | some rating => { rating := rating, err := none, cache := cache, dispatched := [] }
  | none =>
    let request := voteRequest initialGoal actionDescription
    match RunRequest request with
    | .error err =>
      { rating := ops.ofInt 0, err := some (.runRequest err), cache := cache,
        dispatched := [request] }
    | .ok serverResponse =>
      if serverResponse.GetCompletionResponse.length = 0 then
        { rating := ops.ofInt 0, err := some .noCompletions, cache := cache,
          dispatched := [request] }
      else
        let tally := voteGroups ops ParseJSON
          { currentRating := ops.ofInt 0, numberOfVotes := 0 }
          serverResponse.GetCompletionResponse
        let finalRating := ops.div tally.currentRating (ops.ofInt tally.numberOfVotes)
        { rating := finalRating, err := none,
          cache := if tally.numberOfVotes ≥ 5 then cache.set actionDescription finalRating
                   else cache,
          dispatched := [request] }

/-- The tally of a response, as `VoteForAction` computes it on a cache miss. -/
def voteTally {F32 F64 : Type} (ops : FloatOps F32 F64)
    (ParseJSON : String → Except String (votersResponse F32 F64))
    (serverResponse : ServerResponse) : VoteTally F32 :=
  voteGroups ops ParseJSON { currentRating := ops.ofInt 0, numberOfVotes := 0 }
    serverResponse.GetCompletionResponse

/-- One later call of `VoteForAction`: its server, its parser, its two arguments. -/
structure VoteCall (F32 F64 : Type) where
  RunRequest : ClientRequest → Except String ServerResponse
  ParseJSON : String → Except String (votersResponse F32 F64)
  initialGoal : String
  actionDescription : String

/-- The global cache after a sequence of calls of `VoteForAction`, one after the other. -/
def runVoteCalls {F32 F64 : Type} (ops : FloatOps F32 F64) :
    VotesCache F32 → List (VoteCall F32 F64) → VotesCache F32
  | cache, [] => cache
  | cache, call :: rest =>
    runVoteCalls ops
      (VoteForAction ops call.RunRequest call.ParseJSON cache call.initialGoal
        call.actionDescription).cache rest

/-- The empty cache. -/
def emptyVotesCache (F32 : Type) : VotesCache F32 := fun _ => none

/-! ## `agency/general-agent.go`: the fan-out stage -/

/-- The roles of `engines.ChatRole`. -/
inductive ChatRole where
  | ChatRoleSystem
  | ChatRoleUser
  | ChatRoleAssistant
deriving DecidableEq

/-- The type `engines.Message`: `ID` is a pointer, `ReplyTo` a set of ids. -/
structure Message where
  ID : Option String
  Content : String
  ReplyTo : Finset String
  Role : ChatRole
deriving DecidableEq

/-- What the fan-out stage has done with one server result: the messages sent to
`resultsProcessingChannel`, in order, and whether it ran into a `nil` group. -/
structure FanOut where
  emitted : List Message
  faulted : Bool
deriving DecidableEq

/-- The message built for one choice in `agentStateResultsReceiver`. -/
def resultMessage (GenerateMessageId : String → String) (CorrelationId choice : String) :
    Message :=
  { ID := some (GenerateMessageId choice),
    Content := choice,
    ReplyTo := {CorrelationId},
    Role := .ChatRoleAssistant }

/-- The loop `for _, jobResult := range serverResult.GetCompletionResponse` of
`agentStateResultsReceiver`: `jobResult.Choices` is read without a `nil` test, so a
`nil` group stops the goroutine with the messages emitted so far. -/
def fanOutGroups (GenerateMessageId : String → String) (CorrelationId : String) :
    List Message → List (Option GetCompletionResponse) → FanOut
  | emitted, [] => { emitted := emitted, faulted := false }
  | emitted, none :: _ => { emitted := emitted, faulted := true }
  | emitted, some jobResult :: rest =>
    fanOutGroups GenerateMessageId CorrelationId
      (emitted ++ jobResult.Choices.map (resultMessage GenerateMessageId CorrelationId)) rest

/-- The `case serverResult := <-agentState.resultsChannel` branch of
`agentStateResultsReceiver`, for one received result. -/
def receiveServerResult (GenerateMessageId : String → String) :
    Option ServerResponse → FanOut
  | none => { emitted := [], faulted := false }
  | some serverResult =>
    if serverResult.GetCompletionResponse.length > 0 then
      fanOutGroups GenerateMessageId serverResult.CorrelationId []
        serverResult.GetCompletionResponse
    else
      { emitted := [], faulted := false }

/-- What arrives at the `select` of `agentStateResultsReceiver`: a stop signal or a
server result. -/
inductive ReceiverEvent where
  | quit
  | result (serverResult : Option ServerResponse)

/-- The goroutine `agentStateResultsReceiver` run on a sequence of events: it returns at
the stop signal, stops at a fault, and otherwise fans out result after result. -/
def agentStateResultsReceiver (GenerateMessageId : String → String) :
    List ReceiverEvent → FanOut
  | [] => { emitted := [], faulted := false }
  | .quit :: _ => { emitted := [], faulted := false }
  | .result serverResult :: rest =>
    let here := receiveServerResult GenerateMessageId serverResult
    if here.faulted then here
    else
      let later := agentStateResultsReceiver GenerateMessageId rest
      { emitted := here.emitted ++ later.emitted, faulted := later.faulted }

/-! ## Concrete parameters used to evaluate the definitions on examples -/

/-- Reading of a string of decimal digits as a number (`none` for anything else). -/
def parseDigits : List Char → Option Nat
  | [] => none
  | cs => cs.foldl (fun acc c =>
      match acc with
      | none => none
      | some n => if c.isDigit then some (10 * n + (c.toNat - 48)) else none) (some 0)

/-- Exact rational arithmetic in the place of `float32` and `float64`, with a number
parser for unsigned decimal integers. -/
def ratOps : FloatOps ℚ ℚ :=
  { ofInt := fun n => (n : ℚ),
    ofFloat64 := fun x => x,
    add := fun x y => x + y,
    div := fun x y => x / y,
    ParseFloat := fun s => (parseDigits s.data).map (fun n => (n : ℚ)) }

/-- An engine record with both endpoints configured. -/
def sampleEngine : RemoteInferenceEngine :=
  { EndpointUrl := "http://127.0.0.1:8000/v1/completions",
    EmbeddingsEndpointUrl := "http://127.0.0.1:8000/v1/embeddings",
    MaxBatchSize := 8, MaxRequests := 1, Models := [""], RequestsServed := 0,
    TimeConsumed := 0, TokensProcessed := 0, TokensGenerated := 0, PromptTokens := 0,
    Busy := false, EmbeddingsDims := none, CompletionFailed := false,
    EmbeddingsFailed := false }

/-- A backend that answers 200 with a JSON object that has a `model` key and no `data`
key; `json.Unmarshal` succeeds on it and leaves `Data` nil. -/
def datalessTransport : Transport ℚ :=
  { Post := fun _ _ => .response 200 (.ok "\x7b\"model\": \"m\"\x7d"),
    Unmarshal := fun _ => .ok { Data := none, Model := "m" } }

/-- A backend that answers 200 with one embedding entry whatever the batch. -/
def oneEntryTransport : Transport ℚ :=
  { Post := fun _ _ =>
      .response 200 (.ok "\x7b\"data\": [\x7b\"embedding\": [0.5, 0.25]\x7d], \"model\": \"m\"\x7d"),
    Unmarshal := fun _ => .ok { Data := some [{ Embedding := [1/2, 1/4] }], Model := "m" } }

/-- A backend that answers 200 with two embedding entries and a model path. -/
def twoEntryTransport : Transport ℚ :=
  { Post := fun _ _ => .response 200 (.ok "two entries"),
    Unmarshal := fun _ =>
      .ok { Data := some [{ Embedding := [1/2, 1/4] }, { Embedding := [1/8, 1] }],
            Model := "/models/TheBloke/dolphin-GGUF/dolphin.Q6_K.gguf" } }

/-- A backend whose reported model is a file in a directory that is itself named with
the extension; it answers 200 with one embedding entry. -/
def ggufDirectoryTransport : Transport ℚ :=
  { Post := fun _ _ => .response 200 (.ok "one entry"),
    Unmarshal := fun _ =>
      .ok { Data := some [{ Embedding := [1/2, 1/4] }],
            Model := "/models/TheBloke/dolphin.gguf/dolphin.Q6_K.gguf" } }

/-- A completion executor that succeeds and leaves the engine record as it is. -/
def completionSucceeds (engine : RemoteInferenceEngine) (_ : List JobQueueTask) :
    RemoteInferenceEngine × Option String :=
  (engine, none)

/-- A batch of two tasks, with result channels 1 and 2. -/
def twoTaskBatch : List JobQueueTask :=
  [{ Req := { RawPrompt := "first", MaxRetries := 1 }, ResEmbeddings := some 1 },
   { Req := { RawPrompt := "second", MaxRetries := 1 }, ResEmbeddings := some 2 }]

/-- Choices of a voter and what `tools.ParseJSON` makes of them. -/
def sampleVotes : List (String × votersResponse ℚ ℚ) :=
  [("\x7b\"rate\": \"8\"\x7d", { Thought := "", Criticism := "", Feedback := "", Rate := .string "8" }),
   ("\x7b\"rate\": 7.5\x7d", { Thought := "", Criticism := "", Feedback := "", Rate := .float64 (15/2) }),
   ("\x7b\"rate\": 9\x7d", { Thought := "", Criticism := "", Feedback := "", Rate := .float64 9 }),
   ("\x7b\"rate\": 6\x7d", { Thought := "", Criticism := "", Feedback := "", Rate := .float64 6 }),
   ("\x7b\"rate\": \"5\"\x7d", { Thought := "", Criticism := "", Feedback := "", Rate := .string "5" }),
   ("\x7b\"rate\": null\x7d", { Thought := "", Criticism := "", Feedback := "", Rate := .nil }),
   ("\x7b\"thought\": \"fine\"\x7d", { Thought := "fine", Criticism := "", Feedback := "", Rate := .nil }),
   ("\x7b\"rate\": \"high\"\x7d", { Thought := "", Criticism := "", Feedback := "", Rate := .string "high" })]

/-- A parser that knows the choices of `sampleVotes` and rejects every other text. -/
def sampleParseJSON (choice : String) : Except String (votersResponse ℚ ℚ) :=
  match sampleVotes.lookup choice with
  | some v => .ok v
  | none => .error "invalid character"

/-- A server that answers every request with one group of the given choices. -/
def oneGroupServer (choices : List String) (_ : ClientRequest) : Except String ServerResponse :=
  .ok { CorrelationId := "corr-1", GetCompletionResponse := [some { Choices := choices }] }

/-- The five valid ratings of the specification: "8", 7.5, 9, 6, "5". -/
def fiveValidChoices : List String :=
  ["\x7b\"rate\": \"8\"\x7d", "\x7b\"rate\": 7.5\x7d", "\x7b\"rate\": 9\x7d",
   "\x7b\"rate\": 6\x7d", "\x7b\"rate\": \"5\"\x7d"]

/-! ## Lemmas on `strings.Split` and `strings.Join` -/

namespace strings

theorem splitChars_ne_nil (sep : Char) (l : List Char) : splitChars sep l ≠ [] := by
  induction l with
  | nil => simp [splitChars]
  | cons c cs ih =>
    unfold splitChars
    split_ifs
    · simp
    · split <;> simp

theorem splitChars_of_not_mem (sep : Char) (l : List Char) (h : sep ∉ l) :
    splitChars sep l = [l] := by
  induction l with
  | nil => rfl
  | cons c cs ih =>
    have hc : c ≠ sep := fun e => h (by simp [e])
    have hcs : sep ∉ cs := fun e => h (by simp [e])
    simp [splitChars, hc, ih hcs]

theorem joinChars_splitChars (sep : Char) (l : List Char) :
    joinChars sep (splitChars sep l) = l := by
  induction l with
  | nil => rfl
  | cons c cs ih =>
    unfold splitChars
    split_ifs with hc
    · obtain ⟨p, ps, hps⟩ := List.exists_cons_of_ne_nil (splitChars_ne_nil sep cs)
      rw [hps] at ih ⊢
      simp [joinChars, ih, hc]
    · obtain ⟨p, ps, hps⟩ := List.exists_cons_of_ne_nil (splitChars_ne_nil sep cs)
      rw [hps] at ih ⊢
      cases ps with
      | nil => simpa [joinChars] using ih
      | cons q qs => simp only [joinChars] at ih ⊢; simp [ih]

theorem length_splitChars (sep : Char) (l : List Char) :
    (splitChars sep l).length = l.count sep + 1 := by
  induction l with
  | nil => rfl
  | cons c cs ih =>
    unfold splitChars
    split_ifs with hc
    · simp [ih, hc]
    · obtain ⟨p, ps, hps⟩ := List.exists_cons_of_ne_nil (splitChars_ne_nil sep cs)
      rw [hps] at ih ⊢
      simp only [List.length_cons] at ih ⊢
      rw [List.count_cons_of_ne (Ne.symm hc)]
      exact ih

theorem not_mem_of_mem_splitChars (sep : Char) (l : List Char) :
    ∀ p ∈ splitChars sep l, sep ∉ p := by
  induction l with
  | nil => simp [splitChars]
  | cons c cs ih =>
    unfold splitChars
    split_ifs with hc
    · intro p hp
      rcases List.mem_cons.1 hp with rfl | hp
      · simp
      · exact ih p hp
    · obtain ⟨q, qs, hqs⟩ := List.exists_cons_of_ne_nil (splitChars_ne_nil sep cs)
      rw [hqs] at ih ⊢
      intro p hp
      rcases List.mem_cons.1 hp with rfl | hp
      · have := ih q (by simp)
        simp only [List.mem_cons, not_or]
        exact ⟨Ne.symm hc, this⟩
      · exact ih p (by simp [hp])

end strings

theorem strings.splitChars_append_sep (sep : Char) (d rest : List Char) (hd : sep ∉ d) :
    strings.splitChars sep (d ++ sep :: rest) = d :: strings.splitChars sep rest := by
  induction d with
  | nil => simp [strings.splitChars]
  | cons c cs ih =>
    have hc : c ≠ sep := fun e => hd (by simp [e])
    have hcs : sep ∉ cs := fun e => hd (by simp [e])
    simp [strings.splitChars, hc, ih hcs]

theorem strings.joinChars_concat (sep : Char) (l : List (List Char)) (f : List Char)
    (hl : l ≠ []) :
    strings.joinChars sep (l ++ [f]) = strings.joinChars sep l ++ sep :: f := by
  induction l with
  | nil => exact absurd rfl hl
  | cons p ps ih =>
    cases ps with
    | nil => simp [strings.joinChars]
    | cons q qs =>
      have h := ih (by simp)
      have e : (p :: q :: qs) ++ [f] = p :: (q :: qs ++ [f]) := rfl
      have e2 : q :: qs ++ [f] = q :: (qs ++ [f]) := rfl
      rw [e]
      rw [e2] at h ⊢
      simp only [strings.joinChars]
      rw [h]
      simp

theorem strings.splitChars_joinChars (sep : Char) (l : List (List Char)) (hl : l ≠ [])
    (hno : ∀ p ∈ l, sep ∉ p) :
    strings.splitChars sep (strings.joinChars sep l) = l := by
  induction l with
  | nil => exact absurd rfl hl
  | cons p ps ih =>
    cases ps with
    | nil =>
      simp only [strings.joinChars]
      exact strings.splitChars_of_not_mem sep p (hno p (by simp))
    | cons q qs =>
      simp only [strings.joinChars]
      rw [strings.splitChars_append_sep sep p _ (hno p (by simp)),
        ih (by simp) (fun r hr => hno r (by simp [hr]))]

theorem hasSuffix_iff (s suffix : String) :
    strings.HasSuffix s suffix = true ↔ suffix.data <:+ s.data := by
  simp [strings.HasSuffix]

theorem contains_iff (s : String) (sep : Char) :
    strings.Contains s sep = true ↔ sep ∈ s.data := by
  simp [strings.Contains]

/-- Splitting undoes joining: a non-empty list of segments without separator is what
`strings.Split` makes of its `strings.Join`. -/
theorem split_join (sep : Char) (parts : List String) (hne : parts ≠ [])
    (hno : ∀ p ∈ parts, sep ∉ p.data) :
    strings.Split (strings.Join parts sep) sep = parts := by
  simp only [strings.Split, strings.Join]
  rw [strings.splitChars_joinChars sep _ (by simpa using hne)]
  · simp [List.map_map, Function.comp_def]
  · intro p hp
    simp only [List.mem_map] at hp
    obtain ⟨q, hq, rfl⟩ := hp
    exact hno q hq

/-- A joined path of at least two segments ends in what its last segment ends in. -/
theorem hasSuffix_join (sep : Char) (parts : List String) (f suffix : String)
    (hne : parts ≠ []) (hsuf : strings.HasSuffix f suffix = true) :
    strings.HasSuffix (strings.Join (parts ++ [f]) sep) suffix = true := by
  rw [hasSuffix_iff] at hsuf ⊢
  simp only [strings.Join]
  rw [List.map_append, List.map_cons, List.map_nil,
    strings.joinChars_concat sep _ _ (by simpa using hne)]
  exact hsuf.trans ((List.suffix_cons _ _).trans (List.suffix_append _ _))

theorem lastPart_append_singleton (l : List String) (f : String) :
    lastPart (l ++ [f]) = f := by
  simp [lastPart, List.getLastD_eq_getLast?]

theorem sliceTo_dropLast (x : List Char) (c : Char) :
    sliceTo (String.mk (x ++ [c])) (len (String.mk (x ++ [c])) - 1) = String.mk x := by
  simp [sliceTo, len]

theorem not_gguf_suffix_of_slash (x : List Char) :
    ¬ (".gguf".data <:+ x ++ ['/']) := by
  intro h
  have := List.IsSuffix.reverse h
  simp at this

theorem suffix_after_sep (suf x y : List Char) (c : Char) (hc : c ∉ suf)
    (h : suf <:+ x ++ c :: y) : suf <:+ y := by
  have hy : c :: y <:+ x ++ c :: y := List.suffix_append _ _
  rcases List.suffix_or_suffix_of_suffix h hy with h1 | h1
  · rcases List.suffix_cons_iff.1 h1 with h2 | h2
    · exact absurd (by simp [h2]) hc
    · exact h2
  · exact absurd (h1.subset (by simp)) hc

theorem no_trailing_sep (x b : List Char) (c : Char) (hb : b ≠ []) (hno : c ∉ b) :
    ¬ ([c] <:+ x ++ c :: b) := by
  intro h
  obtain ⟨t, ht⟩ := h
  have h1 : (x ++ c :: b).getLast? = some c := by
    rw [← ht]; simp
  have h2 : (x ++ c :: b).getLast? = b.getLast? := by
    have : x ++ c :: b = (x ++ [c]) ++ b := by simp
    rw [this, List.getLast?_append_of_ne_nil _ hb]
  rw [h2] at h1
  exact hno (List.mem_of_getLast?_eq_some h1)

/-- The last two steps of `parseModelName` on a candidate name that ends in ".gguf" and
has no separator: the extension is cut and nothing else. -/
theorem strip_candidate (last : String) (hsuf : ".gguf".data <:+ last.data)
    (hno : '/' ∉ last.data) :
    (let modelName : String :=
      if strings.HasSuffix last ".gguf" then sliceTo last (len last - 5) else last
     if strings.HasSuffix modelName "/" then sliceTo modelName (len modelName - 1)
     else modelName) ++ ".gguf" = last
    ∧ '/' ∉ (let modelName : String :=
      if strings.HasSuffix last ".gguf" then sliceTo last (len last - 5) else last
     if strings.HasSuffix modelName "/" then sliceTo modelName (len modelName - 1)
     else modelName).data := by
  obtain ⟨stem, hstem⟩ := hsuf
  have h1 : strings.HasSuffix last ".gguf" = true := (hasSuffix_iff _ _).2 ⟨stem, hstem⟩
  have hslice : sliceTo last (len last - 5) = String.mk stem := by
    simp only [sliceTo, len, ← hstem]
    congr 1
    have : (".gguf" : String).data.length = 5 := by decide
    rw [List.length_append, this, Nat.add_sub_cancel, List.take_left]
  have hstemno : '/' ∉ stem := fun hm => hno (by rw [← hstem]; simp [hm])
  have h2 : strings.HasSuffix (String.mk stem) "/" = false := by
    rw [Bool.eq_false_iff, Ne, hasSuffix_iff]
    intro hsuf
    exact hstemno (hsuf.subset (by decide))
  simp only [h1, if_true, hslice, h2, Bool.false_eq_true, if_false]
  refine ⟨?_, hstemno⟩
  apply String.ext
  simp [String.data_append, hstem]

/-! ## Lemmas on the embeddings executor -/

theorem deliverLoop_spec {F64 : Type} (data : List (embeddingsEntry F64)) (model : String)
    (batch : List JobQueueTask) :
    ∀ (rest pre : List JobQueueTask) (st : DeliverState F64),
      batch = pre ++ rest → batch.length ≤ data.length →
      st.faulted = false →
      st.results = (data.take pre.length).map (entryVector model) →
      (∀ i, st.sent.filter (fun e => e.task = i) =
        if i < pre.length then sendsOfTask data model batch i else []) →
      (∀ e ∈ st.sent, e.task < pre.length) →
      let out := deliverLoop data model pre.length rest st
      out.faulted = false
      ∧ out.results = (data.take batch.length).map (entryVector model)
      ∧ (∀ i, out.sent.filter (fun e => e.task = i) =
        if i < batch.length then sendsOfTask data model batch i else [])
      ∧ (∀ e ∈ out.sent, e.task < batch.length) := by
  intro rest
  induction rest with
  | nil =>
    intro pre st hb _ hf hr hs hm
    simp only [List.append_nil] at hb
    subst hb
    exact ⟨hf, hr, hs, hm⟩
  | cons job rest ih =>
    intro pre st hb hlen hf hr hs hm
    have hdl : pre.length < data.length := by
      have := congrArg List.length hb
      simp at this
      omega
    have hjob : batch[pre.length]? = some job := by
      rw [hb, List.getElem?_append_right (le_refl _)]; simp
    obtain ⟨entry, hentry⟩ : ∃ entry, data[pre.length]? = some entry :=
      ⟨data[pre.length], by simp [hdl]⟩
    simp only [deliverLoop, hentry]
    have hb2 : batch = (pre ++ [job]) ++ rest := by simp [hb]
    have hlen2 : (pre ++ [job]).length = pre.length + 1 := by simp
    have := ih (pre ++ [job])
      { results := st.results ++ [entryVector model entry],
        sent := (match job.ResEmbeddings with
          | some ch => st.sent ++ [⟨pre.length, ch, entryVector model entry⟩]
          | none => st.sent),
        faulted := false } hb2 hlen rfl ?_ ?_ ?_
    · rw [hlen2] at this
      exact this
    · rw [hlen2, hr]
      simp only
      rw [List.take_succ, hentry]
      simp
    · intro i
      rw [hlen2]
      simp only
      have hnew : sendsOfTask data model batch pre.length =
          match job.ResEmbeddings with
          | some ch => [{ task := pre.length, channel := ch, value := entryVector model entry }]
          | none => [] := by
        simp [sendsOfTask, hjob, hentry]
      rcases Nat.lt_trichotomy i pre.length with hi | hi | hi
      · have h1 := hs i
        simp only [hi, if_true] at h1
        have hi2 : i < pre.length + 1 := by omega
        simp only [hi2, if_true]
        cases hch : job.ResEmbeddings with
        | none => simpa using h1
        | some ch =>
          simp only [List.filter_append, h1]
          have : ¬ pre.length = i := by omega
          simp [this]
      · subst hi
        have h1 := hs pre.length
        simp only [lt_irrefl, if_false] at h1
        simp only [Nat.lt_succ_self, if_true, hnew]
        cases hch : job.ResEmbeddings with
        | none => simpa using h1
        | some ch => simp [List.filter_append, h1]
      · have h1 := hs i
        have hi1 : ¬ i < pre.length := by omega
        have hi2 : ¬ i < pre.length + 1 := by omega
        simp only [hi1, if_false] at h1
        simp only [hi2, if_false]
        cases hch : job.ResEmbeddings with
        | none => simpa using h1
        | some ch =>
          simp only [List.filter_append, h1]
          have : ¬ pre.length = i := by omega
          simp [this]
    · intro e he
      rw [hlen2]
      cases hch : job.ResEmbeddings with
      | none =>
        simp only [hch] at he
        exact Nat.lt_succ_of_lt (hm e he)
      | some ch =>
        simp only [hch, List.mem_append, List.mem_singleton] at he
        rcases he with he | he
        · exact Nat.lt_succ_of_lt (hm e he)
        · subst he; simp

theorem RunEmbeddingsRequest_parsed {F64 : Type} (net : Transport F64)
    (inferenceEngine : RemoteInferenceEngine) (batch : List JobQueueTask)
    (raw : String) (parsedResponse : embeddingsResponse F64)
    (data : List (embeddingsEntry F64))
    (hurl : inferenceEngine.EmbeddingsEndpointUrl ≠ "")
    (hN : 1 ≤ batch.length)
    (hpost : net.Post inferenceEngine.EmbeddingsEndpointUrl
      (batch.map (fun b => b.Req.RawPrompt)) = .response 200 (.ok raw))
    (hparse : net.Unmarshal raw = .ok parsedResponse)
    (hdata : parsedResponse.Data = some data) :
    RunEmbeddingsRequest net inferenceEngine batch =
      (let st := deliverLoop data (parseModelName parsedResponse.Model) 0 batch
          { results := [], sent := [], faulted := false }
       let posts := [(inferenceEngine.EmbeddingsEndpointUrl, batch.map (fun b => b.Req.RawPrompt))]
       if st.faulted then
         { outcome := .panicked "index out of range", sent := st.sent, posts := posts }
       else
         { outcome := .returned (some st.results, none), sent := st.sent, posts := posts }) := by
  have h0 : ¬ batch.length = 0 := by omega
  unfold RunEmbeddingsRequest
  simp only [h0, hurl, if_false, hpost, hparse, hdata, ne_eq, not_true_eq_false]

/-- Every `return nil, err` of `RunEmbeddingsRequest` comes before the first send: a run
that returns an error, or returns no results, has sent nothing. -/
theorem RunEmbeddingsRequest_error_sends_nothing {F64 : Type} (net : Transport F64)
    (inferenceEngine : RemoteInferenceEngine) (batch : List JobQueueTask)
    (results : Option (List (Vector F64))) (err : Option EmbeddingsError)
    (h : (RunEmbeddingsRequest net inferenceEngine batch).outcome = .returned (results, err))
    (hfail : err ≠ none ∨ results = none) :
    (RunEmbeddingsRequest net inferenceEngine batch).sent = [] := by
  unfold RunEmbeddingsRequest at h ⊢
  by_cases h0 : batch.length = 0
  · simp [h0]
  by_cases h1 : inferenceEngine.EmbeddingsEndpointUrl = ""
  · simp [h0, h1]
  simp only [h0, h1, if_false] at h ⊢
  cases hp : net.Post inferenceEngine.EmbeddingsEndpointUrl
      (batch.map (fun b => b.Req.RawPrompt)) with
  | failed e => simp
  | response code body =>
    simp only [hp] at h ⊢
    by_cases hc : code = 200
    · simp only [hc, ne_eq, not_true_eq_false, if_false] at h ⊢
      cases body with
      | error e => simp
      | ok raw =>
        simp only at h ⊢
        cases hu : net.Unmarshal raw with
        | error e => simp
        | ok parsedResponse =>
          simp only [hu] at h ⊢
          cases hd : parsedResponse.Data with
          | none => simp
          | some data =>
            simp only [hd] at h ⊢
            split_ifs at h ⊢ with hf
            simp only [Outcome.returned.injEq, Prod.mk.injEq] at h
            obtain ⟨h2, h3⟩ := h
            subst h2 h3
            simp at hfail
    · simp [hc]

/-! ## Lemmas on the voting cache -/

theorem VoteForAction_hit {F32 F64 : Type} (ops : FloatOps F32 F64)
    (RunRequest : ClientRequest → Except String ServerResponse)
    (ParseJSON : String → Except String (votersResponse F32 F64))
    (cache : VotesCache F32) (initialGoal actionDescription : String) (rating : F32)
    (h : cache actionDescription = some rating) :
    VoteForAction ops RunRequest ParseJSON cache initialGoal actionDescription =
      { rating := rating, err := none, cache := cache, dispatched := [] } := by
  simp [VoteForAction, h]

theorem VoteForAction_miss {F32 F64 : Type} (ops : FloatOps F32 F64)
    (RunRequest : ClientRequest → Except String ServerResponse)
    (ParseJSON : String → Except String (votersResponse F32 F64))
    (cache : VotesCache F32) (initialGoal actionDescription : String)
    (serverResponse : ServerResponse)
    (hmiss : cache actionDescription = none)
    (hrun : RunRequest (voteRequest initialGoal actionDescription) = .ok serverResponse)
    (hgroups : serverResponse.GetCompletionResponse.length > 0) :
    VoteForAction ops RunRequest ParseJSON cache initialGoal actionDescription =
      { rating := ops.div (voteTally ops ParseJSON serverResponse).currentRating
          (ops.ofInt (voteTally ops ParseJSON serverResponse).numberOfVotes),
        err := none,
        cache :=
          if (voteTally ops ParseJSON serverResponse).numberOfVotes ≥ 5 then
            cache.set actionDescription
              (ops.div (voteTally ops ParseJSON serverResponse).currentRating
                (ops.ofInt (voteTally ops ParseJSON serverResponse).numberOfVotes))
          else cache,
        dispatched := [voteRequest initialGoal actionDescription] } := by
  have h0 : ¬ serverResponse.GetCompletionResponse.length = 0 := by omega
  simp only [VoteForAction, hmiss, hrun, h0, if_false, voteTally]

theorem VoteForAction_keeps_entries {F32 F64 : Type} (ops : FloatOps F32 F64)
    (RunRequest : ClientRequest → Except String ServerResponse)
    (ParseJSON : String → Except String (votersResponse F32 F64))
    (cache : VotesCache F32) (initialGoal actionDescription key : String) (rating : F32)
    (h : cache key = some rating) :
    (VoteForAction ops RunRequest ParseJSON cache initialGoal actionDescription).cache key
      = some rating := by
  unfold VoteForAction
  cases hc : cache actionDescription with
  | some r => simpa using h
  | none =>
    have hne : key ≠ actionDescription := by
      intro e; rw [e, hc] at h; exact Option.noConfusion h
    simp only
    cases RunRequest (voteRequest initialGoal actionDescription) with
    | error e => simpa using h
    | ok serverResponse =>
      simp only
      split_ifs
      · exact h
      · simp [VotesCache.set, hne, h]
      · exact h

theorem runVoteCalls_keeps_entries {F32 F64 : Type} (ops : FloatOps F32 F64)
    (calls : List (VoteCall F32 F64)) :
    ∀ (cache : VotesCache F32) (key : String) (rating : F32),
      cache key = some rating → runVoteCalls ops cache calls key = some rating := by
  induction calls with
  | nil => intro cache key rating h; exact h
  | cons call rest ih =>
    intro cache key rating h
    exact ih _ key rating (VoteForAction_keeps_entries ops _ _ cache _ _ key rating h)

/-! ## Lemmas on the fan-out stage -/

theorem fanOutGroups_all_present (GenerateMessageId : String → String) (CorrelationId : String)
    (groups : List GetCompletionResponse) :
    ∀ emitted : List Message,
      fanOutGroups GenerateMessageId CorrelationId emitted (groups.map some) =
        { emitted := emitted ++
            ((groups.map (fun g => g.Choices)).flatten).map
              (resultMessage GenerateMessageId CorrelationId),
          faulted := false } := by
  induction groups with
  | nil => intro emitted; simp [fanOutGroups]
  | cons g gs ih =>
    intro emitted
    simp [fanOutGroups, ih]

/-- Fan-out on a response all of whose groups are present: one message per choice, in
group order then choice order, each with the content of the choice, the role Assistant,
the one-element reply set of the correlation id and the id generated from the content;
and nothing for a nil response or a response without groups. -/
theorem receiveServerResult_fans_out (GenerateMessageId : String → String)
    (CorrelationId : String) (groups : List GetCompletionResponse) :
    receiveServerResult GenerateMessageId
        (some { CorrelationId := CorrelationId, GetCompletionResponse := groups.map some })
      = { emitted := ((groups.map (fun g => g.Choices)).flatten).map (fun x =>
            { ID := some (GenerateMessageId x), Content := x, ReplyTo := {CorrelationId},
              Role := .ChatRoleAssistant }),
          faulted := false }
    ∧ receiveServerResult GenerateMessageId none = { emitted := [], faulted := false }
    ∧ receiveServerResult GenerateMessageId
        (some { CorrelationId := CorrelationId, GetCompletionResponse := [] })
      = { emitted := [], faulted := false } := by
  refine ⟨?_, rfl, rfl⟩
  cases groups with
  | nil => rfl
  | cons g gs =>
    simp only [receiveServerResult, List.map_cons, List.length_cons, gt_iff_lt,
      Nat.zero_lt_succ, if_true]
    rw [← List.map_cons some g gs, fanOutGroups_all_present]
    rfl

/-! ## Lemmas on repeated normalization and on the bootstrap -/

theorem strings.length_joinChars_append_le (sep : Char) (pre l : List (List Char)) :
    (strings.joinChars sep l).length ≤ (strings.joinChars sep (pre ++ l)).length := by
  induction pre with
  | nil => simp
  | cons p ps ih =>
    cases hl : ps ++ l with
    | nil =>
      have : l = [] := (List.append_eq_nil.1 hl).2
      subst this
      simp [strings.joinChars]
    | cons q qs =>
      rw [hl] at ih
      simp only [List.cons_append, hl, strings.joinChars, List.length_append, List.length_cons]
      omega

theorem exists_last_three {α : Type} (l : List α) (h : l.length > 2) :
    ∃ (pre : List α) (a b f : α), l = pre ++ [a, b, f] := by
  have h3 : (l.drop (l.length - 3)).length = 3 := by
    rw [List.length_drop]; omega
  obtain ⟨a, b, f, habf⟩ := List.length_eq_three.1 h3
  exact ⟨l.take (l.length - 3), a, b, f, by rw [← habf, List.take_append_drop]⟩

theorem len_sliceTo_le (s : String) (n : Nat) : len (sliceTo s n) ≤ n ∧ len (sliceTo s n) ≤ len s := by
  simp only [len, sliceTo, List.length_take]
  omega

/-- The last two steps of `parseModelName` never lengthen the candidate name, and they
shorten it by the extension when it has one. -/
theorem strip_len (c : String) :
    len (let modelName : String :=
      if strings.HasSuffix c ".gguf" then sliceTo c (len c - 5) else c
     if strings.HasSuffix modelName "/" then sliceTo modelName (len modelName - 1)
     else modelName) ≤ len c
    ∧ (strings.HasSuffix c ".gguf" = true →
      len (let modelName : String :=
        if strings.HasSuffix c ".gguf" then sliceTo c (len c - 5) else c
       if strings.HasSuffix modelName "/" then sliceTo modelName (len modelName - 1)
       else modelName) < len c) := by
  have h5 : strings.HasSuffix c ".gguf" = true → 5 ≤ len c := by
    intro h
    have := ((hasSuffix_iff _ _).1 h).length_le
    simpa [len] using this
  cases hc : strings.HasSuffix c ".gguf" with
  | true =>
    have hfive := h5 hc
    simp only [if_true]
    have h1 := len_sliceTo_le c (len c - 5)
    cases hs : strings.HasSuffix (sliceTo c (len c - 5)) "/" with
    | true =>
      simp only [if_true]
      have h2 := len_sliceTo_le (sliceTo c (len c - 5)) (len (sliceTo c (len c - 5)) - 1)
      constructor
      · omega
      · intro _; omega
    | false =>
      simp only [Bool.false_eq_true, if_false]
      constructor
      · omega
      · intro _; omega
  | false =>
    simp only [Bool.false_eq_true, if_false]
    refine ⟨?_, fun h => absurd h (by simp)⟩
    cases hs : strings.HasSuffix c "/" with
    | true =>
      simp only [if_true]
      exact (len_sliceTo_le c (len c - 1)).2
    | false =>
      simp only [Bool.false_eq_true, if_false]
      exact le_refl _

/-- On a name that ends in ".gguf" the normalizer returns a strictly shorter name. -/
theorem parseModelName_shorter (t : String) (h : strings.HasSuffix t ".gguf" = true) :
    len (parseModelName t) < len t := by
  have hsuf : ".gguf".data <:+ t.data := (hasSuffix_iff _ _).1 h
  have hjoin := strings.joinChars_splitChars '/' t.data
  have key : ∃ c : String,
      (if strings.Contains t '/' then
            (if (strings.Split t '/').length > 2 then
              sliceTo (strings.Join ((strings.Split t '/').drop ((strings.Split t '/').length - 3)) '/')
                (len (strings.Join ((strings.Split t '/').drop ((strings.Split t '/').length - 3)) '/')
                  - len (lastPart (strings.Split t '/')))
            else lastPart (strings.Split t '/'))
          else t) = c
      ∧ (c = t ∨ len c < len t) := by
    cases hcon : strings.Contains t '/' with
    | false => exact ⟨t, by simp, Or.inl rfl⟩
    | true =>
      simp only [if_true]
      by_cases hlen : (strings.Split t '/').length > 2
      · simp only [hlen, if_true]
        refine ⟨_, rfl, Or.inr ?_⟩
        have hL : (strings.splitChars '/' t.data).length > 2 := by
          simpa [strings.Split] using hlen
        obtain ⟨pre, a, b, f, hL⟩ := exists_last_three _ hL
        have hSplit : strings.Split t '/'
            = pre.map String.mk ++ [String.mk a, String.mk b, String.mk f] := by
          simp [strings.Split, hL]
        have hdrop : (strings.Split t '/').drop ((strings.Split t '/').length - 3)
            = [String.mk a, String.mk b, String.mk f] := by
          rw [hSplit]; simp
        have hlast : lastPart (strings.Split t '/') = String.mk f := by
          have e : pre.map String.mk ++ [String.mk a, String.mk b, String.mk f]
              = (pre.map String.mk ++ [String.mk a, String.mk b]) ++ [String.mk f] := by simp
          rw [hSplit, e, lastPart_append_singleton]
        rw [hdrop, hlast]
        have hJ : len (strings.Join [String.mk a, String.mk b, String.mk f] '/')
            = a.length + 1 + (b.length + 1 + f.length) := by
          simp [len, strings.Join, strings.joinChars]
          omega
        have hc := (len_sliceTo_le (strings.Join [String.mk a, String.mk b, String.mk f] '/')
          (len (strings.Join [String.mk a, String.mk b, String.mk f] '/') - len (String.mk f))).1
        have hf : len (String.mk f) = f.length := rfl
        have ht : (strings.joinChars '/' [a, b, f]).length ≤ t.data.length := by
          have := strings.length_joinChars_append_le '/' pre [a, b, f]
          rw [← hL, hjoin] at this
          exact this
        simp only [strings.joinChars, List.length_append, List.length_cons] at ht
        have hfsuf : ".gguf".data <:+ f := by
          have e : pre ++ [a, b, f] = (pre ++ [a, b]) ++ [f] := by simp
          rw [hL, e, strings.joinChars_concat _ _ _ (by simp)] at hjoin
          exact suffix_after_sep _ _ f '/' (by decide) (hjoin ▸ hsuf)
        have hf5 : 5 ≤ f.length := by simpa using hfsuf.length_le
        have htl : len t = t.data.length := rfl
        omega
      · simp only [hlen, if_false]
        refine ⟨_, rfl, ?_⟩
        rcases hsp : strings.splitChars '/' t.data with _ | ⟨x, _ | ⟨y, rest⟩⟩
        · exact absurd hsp (strings.splitChars_ne_nil _ _)
        · rw [hsp] at hjoin
          simp only [strings.joinChars] at hjoin
          subst hjoin
          left
          simp [strings.Split, hsp, lastPart]
        · cases rest with
          | nil =>
            rw [hsp] at hjoin
            simp only [strings.joinChars] at hjoin
            right
            have hl : lastPart (strings.Split t '/') = String.mk y := by
              simp [strings.Split, hsp, lastPart]
            rw [hl]
            have : len t = (x ++ '/' :: y).length := by rw [hjoin]; rfl
            rw [this]
            simp [len]
            omega
          | cons z zs =>
            exfalso
            apply hlen
            simp [strings.Split, hsp]
  obtain ⟨c, hc, hcases⟩ := key
  have hstrip := strip_len c
  unfold parseModelName
  simp only [h, if_true]
  rw [hc]
  rcases hcases with hct | hlt
  · subst hct
    exact hstrip.2 h
  · exact lt_of_le_of_lt hstrip.1 hlt

theorem mem_upsertModel (name : String) (models : List String) :
    name ∈ upsertModel name models := by
  have h : ∀ ms, replaceFirstModel name models = some ms → name ∈ ms := by
    induction models with
    | nil => intro ms h; simp [replaceFirstModel] at h
    | cons m rest ih =>
      intro ms h
      unfold replaceFirstModel at h
      split_ifs at h with hc
      · simp only [Option.some.injEq] at h
        subst h
        simp
      · cases hr : replaceFirstModel name rest with
        | none => rw [hr] at h; simp at h
        | some ms2 =>
          rw [hr] at h
          simp only [Option.map_some', Option.some.injEq] at h
          subst h
          exact List.mem_cons_of_mem _ (ih ms2 hr)
  unfold upsertModel
  cases hr : replaceFirstModel name models with
  | none => simp
  | some ms => exact h ms hr

/-- What `StartInferenceEngine` leaves in `engine.Models` when the canary embeddings call
returned a first vector that carries a model name: the list the completion call left,
with the normalized form of that name overwritten or appended. -/
theorem StartInferenceEngine_models {F64 : Type} (net : Transport F64)
    (RunCompletionRequest :
      RemoteInferenceEngine → List JobQueueTask → RemoteInferenceEngine × Option String)
    (engine : RemoteInferenceEngine) (first : Vector F64) (rest : List (Vector F64))
    (name : String)
    (h : (StartInferenceEngine net RunCompletionRequest engine).cEmb = some (first :: rest))
    (hm : first.Model = some name) :
    (StartInferenceEngine net RunCompletionRequest engine).engine.Models =
      upsertModel (parseModelName name)
        (RunCompletionRequest engine [canaryCompletionTask]).1.Models := by
  unfold StartInferenceEngine at h ⊢
  simp only at h ⊢
  split at h
  · simp at h
  · rename_i cEmb err heq
    simp only at h
    subst h
    simp only [hm]
    split_ifs <;> rfl

/-! ## The claims -/

/-- C1, the code at the failing input. On a 200 response whose body parses without a
`data` array, `RunEmbeddingsRequest` returns the pair `(nil, nil)`: no results and no
error, after one network call; this holds for the canary batch and for every longer
batch. -/
theorem RunEmbeddingsRequest_dataless_returns_nil_nil :
    (RunEmbeddingsRequest datalessTransport sampleEngine [canaryEmbeddingsTask]).outcome
      = .returned (none, none)
    ∧ (RunEmbeddingsRequest datalessTransport sampleEngine [canaryEmbeddingsTask]).posts
      = [("http://127.0.0.1:8000/v1/embeddings", ["Hello world"])]
    ∧ ∀ (job : JobQueueTask) (rest : List JobQueueTask),
      (RunEmbeddingsRequest datalessTransport sampleEngine (job :: rest)).outcome
        = .returned (none, none) := by
  refine ⟨rfl, rfl, ?_⟩
  intro job rest
  simp [RunEmbeddingsRequest, datalessTransport, sampleEngine]

/-- C2. Quorum gate. For every prior cache in which the action description is not a key
and every dispatch that returns a response with at least one completion group,
`VoteForAction` returns the average with no error, and the cache after the call is the
prior cache with the one entry `actionDescription -> average` added if and only if the
number of ratings accepted into the average is at least 5; below 5 it is the prior cache
(and the next call with the same arguments dispatches again); every other key keeps
what it had. -/
theorem VoteForAction_quorum_gate {F32 F64 : Type} (ops : FloatOps F32 F64)
    (RunRequest : ClientRequest → Except String ServerResponse)
    (ParseJSON : String → Except String (votersResponse F32 F64))
    (cache : VotesCache F32) (initialGoal actionDescription : String)
    (serverResponse : ServerResponse)
    (hmiss : cache actionDescription = none)
    (hrun : RunRequest (voteRequest initialGoal actionDescription) = .ok serverResponse)
    (hgroups : serverResponse.GetCompletionResponse.length > 0) :
    let run := VoteForAction ops RunRequest ParseJSON cache initialGoal actionDescription
    let tally := voteTally ops ParseJSON serverResponse
    run.err = none
    ∧ run.rating = ops.div tally.currentRating (ops.ofInt tally.numberOfVotes)
    ∧ (run.cache = cache.set actionDescription run.rating ↔ 5 ≤ tally.numberOfVotes)
    ∧ (tally.numberOfVotes < 5 → run.cache = cache)
    ∧ (∀ key, key ≠ actionDescription → run.cache key = cache key)
    ∧ (tally.numberOfVotes < 5 →
        ∀ (RunRequest2 : ClientRequest → Except String ServerResponse)
          (ParseJSON2 : String → Except String (votersResponse F32 F64)),
          (VoteForAction ops RunRequest2 ParseJSON2 run.cache initialGoal
            actionDescription).dispatched = [voteRequest initialGoal actionDescription]) := by
  intro run tally
  have hrunEq := VoteForAction_miss ops RunRequest ParseJSON cache initialGoal
    actionDescription serverResponse hmiss hrun hgroups
  have hcache : run.cache = if tally.numberOfVotes ≥ 5 then
      cache.set actionDescription run.rating else cache := by
    simp only [run, tally]
    rw [hrunEq]
  have hrating : run.rating = ops.div tally.currentRating (ops.ofInt tally.numberOfVotes) := by
    simp only [run, tally]
    rw [hrunEq]
  have herr : run.err = none := by
    simp only [run]
    rw [hrunEq]
  have hbelow : tally.numberOfVotes < 5 → run.cache = cache := by
    intro hlt
    rw [hcache, if_neg (by omega)]
  refine ⟨herr, hrating, ?_, hbelow, ?_, ?_⟩
  · constructor
    · intro hset
      by_contra hlt
      have h1 : run.cache = cache := hbelow (by omega)
      have h2 := congrFun hset actionDescription
      rw [h1, hmiss] at h2
      simp [VotesCache.set] at h2
    · intro hq
      rw [hcache, if_pos hq]
  · intro key hkey
    rw [hcache]
    split_ifs
    · simp [VotesCache.set, hkey]
    · rfl
  · intro hlt RunRequest2 ParseJSON2
    rw [hbelow hlt]
    unfold VoteForAction
    simp only [hmiss]
    cases RunRequest2 (voteRequest initialGoal actionDescription) with
    | error e => rfl
    | ok r => simp only; split_ifs <;> rfl

/-- C2 on the five ratings of the specification ("8", 7.5, 9, 6, "5") and an empty
cache: the hypotheses hold, five ratings are accepted and the average is cached. -/
theorem VoteForAction_quorum_gate_witness :
    emptyVotesCache ℚ "open the door" = none
    ∧ oneGroupServer fiveValidChoices (voteRequest "leave the room" "open the door")
      = .ok { CorrelationId := "corr-1",
              GetCompletionResponse := [some { Choices := fiveValidChoices }] }
    ∧ ([some { Choices := fiveValidChoices }] : List (Option GetCompletionResponse)).length > 0
    ∧ (VoteForAction ratOps (oneGroupServer fiveValidChoices) sampleParseJSON
        (emptyVotesCache ℚ) "leave the room" "open the door").cache
      = (emptyVotesCache ℚ).set "open the door"
          (VoteForAction ratOps (oneGroupServer fiveValidChoices) sampleParseJSON
            (emptyVotesCache ℚ) "leave the room" "open the door").rating :=
  ⟨rfl, rfl, by decide,
    (VoteForAction_quorum_gate ratOps (oneGroupServer fiveValidChoices) sampleParseJSON
      (emptyVotesCache ℚ) "leave the room" "open the door"
      { CorrelationId := "corr-1", GetCompletionResponse := [some { Choices := fiveValidChoices }] }
      rfl rfl (by decide)).2.2.1.2 (by decide)⟩

/-- C3, the code at the failing input. A response whose second group entry is nil: the
stage emits the message of the first group, then faults on the nil entry, and the
message for the choice of the third group is never emitted. -/
theorem receiveServerResult_nil_group_faults (GenerateMessageId : String → String) :
    receiveServerResult GenerateMessageId
        (some { CorrelationId := "corr-1",
                GetCompletionResponse :=
                  [some { Choices := ["a"] }, none, some { Choices := ["b"] }] })
      = { emitted := [{ ID := some (GenerateMessageId "a"), Content := "a",
                        ReplyTo := {"corr-1"}, Role := .ChatRoleAssistant }],
          faulted := true } := by
  rfl

/-- C4. For every string `s` that ends in ".gguf" and splits on "/" into at least three
segments, the last three being `a`, `b` and the file name `f`, `parseModelName s` is
`a`, a separator, `b`: the names of the two directories enclosing the file, without the
file name and without the separator that followed them; when `b` is not empty the
result does not end in a separator. -/
theorem parseModelName_two_enclosing_directories (s : String) (pre : List String)
    (a b f : String)
    (hs : strings.HasSuffix s ".gguf" = true)
    (hsplit : strings.Split s '/' = pre ++ [a, b, f]) :
    parseModelName s = a ++ "/" ++ b
    ∧ (b ≠ "" → strings.HasSuffix (parseModelName s) "/" = false) := by
  have hres : parseModelName s = a ++ "/" ++ b := by
    have hcontains : strings.Contains s '/' = true := by
      by_contra hc
      have hnot : '/' ∉ s.data := fun hm => hc ((contains_iff s '/').2 hm)
      have := congrArg List.length hsplit
      simp [strings.Split, strings.splitChars_of_not_mem '/' s.data hnot] at this
    have hlen : (pre ++ [a, b, f]).length > 2 := by simp
    have hdrop : (pre ++ [a, b, f]).drop ((pre ++ [a, b, f]).length - 3) = [a, b, f] := by
      simp
    have hlast : lastPart (pre ++ [a, b, f]) = f := by
      have : pre ++ [a, b, f] = (pre ++ [a, b]) ++ [f] := by simp
      rw [this, lastPart_append_singleton]
    unfold parseModelName
    simp only [hs, hcontains, if_true, hsplit, hlen, hdrop, hlast]
    have hcand : sliceTo (strings.Join [a, b, f] '/') (len (strings.Join [a, b, f] '/') - len f)
        = String.mk ((a.data ++ '/' :: b.data) ++ ['/']) := by
      simp only [sliceTo, strings.Join, len, List.map, strings.joinChars]
      congr 1
      have e : a.data ++ '/' :: (b.data ++ '/' :: f.data) = ((a.data ++ '/' :: b.data) ++ ['/']) ++ f.data := by
        simp
      rw [e, List.length_append, Nat.add_sub_cancel, List.take_left]
    rw [hcand]
    have h1 : strings.HasSuffix (String.mk ((a.data ++ '/' :: b.data) ++ ['/'])) ".gguf" = false := by
      rw [Bool.eq_false_iff, Ne, hasSuffix_iff]
      exact not_gguf_suffix_of_slash _
    have h2 : strings.HasSuffix (String.mk ((a.data ++ '/' :: b.data) ++ ['/'])) "/" = true := by
      rw [hasSuffix_iff]
      exact List.suffix_append _ _
    simp only [h1, h2, if_true, Bool.false_eq_true, if_false]
    rw [sliceTo_dropLast]
    apply String.ext
    simp
  refine ⟨hres, ?_⟩
  intro hb
  have hbmem : b ∈ strings.Split s '/' := by rw [hsplit]; simp
  obtain ⟨p, hp, hpb⟩ := List.mem_map.1 hbmem
  have hbno : '/' ∉ b.data := by
    rw [← hpb]
    exact strings.not_mem_of_mem_splitChars '/' s.data p hp
  have hbne : b.data ≠ [] := fun e => hb (String.ext (by simpa using e))
  rw [hres, Bool.eq_false_iff, Ne, hasSuffix_iff]
  have e : (a ++ "/" ++ b).data = a.data ++ '/' :: b.data := by simp [String.data_append]
  rw [e]
  exact no_trailing_sep a.data b.data '/' hbne hbno

/-- C4 at the path of the specification: the hypotheses hold there and the result is the
two directory names. -/
theorem parseModelName_two_enclosing_directories_witness :
    strings.HasSuffix
      "/Users/x/models/TheBloke/dolphin-2.2.1-mistral-7B-GGUF/dolphin-2.2.1-mistral-7b.Q6_K.gguf"
      ".gguf" = true
    ∧ strings.Split
      "/Users/x/models/TheBloke/dolphin-2.2.1-mistral-7B-GGUF/dolphin-2.2.1-mistral-7b.Q6_K.gguf"
      '/' = ["", "Users", "x", "models"] ++
        ["TheBloke", "dolphin-2.2.1-mistral-7B-GGUF", "dolphin-2.2.1-mistral-7b.Q6_K.gguf"]
    ∧ parseModelName
      "/Users/x/models/TheBloke/dolphin-2.2.1-mistral-7B-GGUF/dolphin-2.2.1-mistral-7b.Q6_K.gguf"
      = "TheBloke/dolphin-2.2.1-mistral-7B-GGUF" :=
  ⟨by decide, by decide,
    (parseModelName_two_enclosing_directories _ ["", "Users", "x", "models"] "TheBloke"
      "dolphin-2.2.1-mistral-7B-GGUF" "dolphin-2.2.1-mistral-7b.Q6_K.gguf"
      (by decide) (by decide)).1.trans (by decide)⟩

/-- C5. For every engine with a non-empty embeddings endpoint, every batch of at least
one task and every 200 response whose body parses to exactly as many entries as there
are tasks, with model string `m`: `RunEmbeddingsRequest` returns no error and the slice
whose i-th vector has the numbers of the i-th entry and the model `parseModelName m`
(so one vector per task); the sends carry a task index below the batch length, and for
task `i` there is exactly one send, of the i-th vector on its channel, when the task has
a channel, and none when it has not. -/
theorem RunEmbeddingsRequest_delivers_each_vector {F64 : Type} (net : Transport F64)
    (inferenceEngine : RemoteInferenceEngine) (batch : List JobQueueTask)
    (raw m : String) (es : List (embeddingsEntry F64))
    (hurl : inferenceEngine.EmbeddingsEndpointUrl ≠ "")
    (hN : 1 ≤ batch.length)
    (hpost : net.Post inferenceEngine.EmbeddingsEndpointUrl
      (batch.map (fun b => b.Req.RawPrompt)) = .response 200 (.ok raw))
    (hparse : net.Unmarshal raw = .ok { Data := some es, Model := m })
    (hlen : es.length = batch.length) :
    (RunEmbeddingsRequest net inferenceEngine batch).outcome =
      .returned (some (es.map (fun e =>
        { VecF64 := e.Embedding, Model := some (parseModelName m) })), none)
    ∧ (es.map (fun e =>
        ({ VecF64 := e.Embedding, Model := some (parseModelName m) } : Vector F64))).length
        = batch.length
    ∧ (∀ (i : Nat) (job : JobQueueTask) (e : embeddingsEntry F64),
        batch[i]? = some job → es[i]? = some e →
        (RunEmbeddingsRequest net inferenceEngine batch).sent.filter (fun x => x.task = i) =
          match job.ResEmbeddings with
          | some ch => [{ task := i, channel := ch,
                          value := { VecF64 := e.Embedding, Model := some (parseModelName m) } }]
          | none => [])
    ∧ (∀ x ∈ (RunEmbeddingsRequest net inferenceEngine batch).sent, x.task < batch.length) := by
  have hrun := RunEmbeddingsRequest_parsed net inferenceEngine batch raw
    { Data := some es, Model := m } es hurl hN hpost hparse rfl
  have hloop := deliverLoop_spec es (parseModelName m) batch batch []
    { results := [], sent := [], faulted := false } (by simp) (by omega) rfl (by simp)
    (by simp) (by simp)
  simp only [List.length_nil] at hloop
  obtain ⟨hf, hr, hs, hm⟩ := hloop
  simp only at hrun
  rw [hrun]
  simp only [hf, Bool.false_eq_true, if_false]
  refine ⟨?_, by simp [hlen], ?_, hm⟩
  · rw [hr, ← hlen, List.take_length]
    rfl
  · intro i job e hjob he
    have hi : i < batch.length := by
      rcases List.getElem?_eq_some_iff.1 hjob with ⟨h, _⟩
      exact h
    rw [hs i]
    simp only [hi, if_true, sendsOfTask, hjob, he]
    rfl

/-- C5 on a batch of two tasks and a response with two entries: the hypotheses hold and
the two vectors come back with the normalized model name. -/
theorem RunEmbeddingsRequest_delivers_each_vector_witness :
    sampleEngine.EmbeddingsEndpointUrl ≠ ""
    ∧ 1 ≤ twoTaskBatch.length
    ∧ twoEntryTransport.Post sampleEngine.EmbeddingsEndpointUrl
        (twoTaskBatch.map (fun b => b.Req.RawPrompt)) = .response 200 (.ok "two entries")
    ∧ twoEntryTransport.Unmarshal "two entries"
      = .ok { Data := some [{ Embedding := [1/2, 1/4] }, { Embedding := [1/8, 1] }],
              Model := "/models/TheBloke/dolphin-GGUF/dolphin.Q6_K.gguf" }
    ∧ ([{ Embedding := [1/2, 1/4] }, { Embedding := [1/8, 1] }] :
        List (embeddingsEntry ℚ)).length = twoTaskBatch.length
    ∧ (RunEmbeddingsRequest twoEntryTransport sampleEngine twoTaskBatch).outcome
      = .returned (some [{ VecF64 := [1/2, 1/4], Model := some "TheBloke/dolphin-GGUF" },
                         { VecF64 := [1/8, 1], Model := some "TheBloke/dolphin-GGUF" }], none) :=
  ⟨by decide, by decide, rfl, rfl, rfl,
    (RunEmbeddingsRequest_delivers_each_vector twoEntryTransport sampleEngine twoTaskBatch
      "two entries" "/models/TheBloke/dolphin-GGUF/dolphin.Q6_K.gguf"
      [{ Embedding := [1/2, 1/4] }, { Embedding := [1/8, 1] }]
      (by decide) (by decide) rfl rfl rfl).1.trans
      (by
        have h : parseModelName "/models/TheBloke/dolphin-GGUF/dolphin.Q6_K.gguf"
            = "TheBloke/dolphin-GGUF" := by decide
        simp [h])⟩

/-- C6, the code at the failing input. With two tasks that both have a result channel
and a 200 response that carries one embedding entry, `RunEmbeddingsRequest` faults at
index 1 after it has sent the first vector on the channel of the first task. -/
theorem RunEmbeddingsRequest_short_response_sends_before_fault :
    (RunEmbeddingsRequest oneEntryTransport sampleEngine twoTaskBatch).outcome
      = .panicked "index out of range"
    ∧ (RunEmbeddingsRequest oneEntryTransport sampleEngine twoTaskBatch).sent
      = [{ task := 0, channel := 1, value := { VecF64 := [1/2, 1/4], Model := some "m" } }] := by
  constructor
  · rfl
  · rfl

/-- C7, the code at the failing input. The dispatch succeeds with one completion group
whose only choice does not parse: no rating is accepted, and `VoteForAction` returns
no error and, as rating, the quotient of the zero sum by the zero count. -/
theorem VoteForAction_zero_votes_no_error {F32 F64 : Type} (ops : FloatOps F32 F64)
    (initialGoal actionDescription : String) :
    (voteTally ops (fun _ => (.error "invalid character" : Except String (votersResponse F32 F64)))
      { CorrelationId := "corr-1",
        GetCompletionResponse := [some { Choices := ["I can not rate this"] }] }).numberOfVotes = 0
    ∧ (VoteForAction ops (oneGroupServer ["I can not rate this"])
        (fun _ => .error "invalid character") (emptyVotesCache F32)
        initialGoal actionDescription).err = none
    ∧ (VoteForAction ops (oneGroupServer ["I can not rate this"])
        (fun _ => .error "invalid character") (emptyVotesCache F32)
        initialGoal actionDescription).rating = ops.div (ops.ofInt 0) (ops.ofInt 0) := by
  refine ⟨rfl, rfl, rfl⟩

/-- C8, the code at the failing input. A choice whose `rate` is absent or `null`, a
boolean, an array or an object is not skipped: it adds a zero to the sum and one to the
number of votes.  With the choices `rate: 9` and `rate: null` the code counts 2 votes
and returns 9/2, where the well-formed choice alone gives 1 vote and 9; and five choices
without a rate reach the quorum, so that their average is written into the cache. -/
theorem voteChoice_counts_rate_of_unlisted_type {F32 F64 : Type} (ops : FloatOps F32 F64)
    (t : VoteTally F32) (choice initialGoal actionDescription : String) (b : Bool) :
    voteChoice ops (fun _ => .ok { Thought := "", Criticism := "", Feedback := "", Rate := .nil })
        t choice
      = { currentRating := ops.add t.currentRating (ops.ofInt 0),
          numberOfVotes := t.numberOfVotes + 1 }
    ∧ voteChoice ops
        (fun _ => .ok { Thought := "", Criticism := "", Feedback := "", Rate := .bool b })
        t choice
      = { currentRating := ops.add t.currentRating (ops.ofInt 0),
          numberOfVotes := t.numberOfVotes + 1 }
    ∧ voteChoice ops
        (fun _ => .ok { Thought := "", Criticism := "", Feedback := "", Rate := .slice })
        t choice
      = { currentRating := ops.add t.currentRating (ops.ofInt 0),
          numberOfVotes := t.numberOfVotes + 1 }
    ∧ voteChoice ops (fun _ => .ok { Thought := "", Criticism := "", Feedback := "", Rate := .map })
        t choice
      = { currentRating := ops.add t.currentRating (ops.ofInt 0),
          numberOfVotes := t.numberOfVotes + 1 }
    ∧ (voteTally ratOps sampleParseJSON
        { CorrelationId := "corr-1",
          GetCompletionResponse :=
            [some { Choices := ["\x7b\"rate\": 9\x7d", "\x7b\"rate\": null\x7d"] }] }).numberOfVotes
        = 2
    ∧ (VoteForAction ratOps
        (oneGroupServer ["\x7b\"rate\": 9\x7d", "\x7b\"rate\": null\x7d"]) sampleParseJSON
        (emptyVotesCache ℚ) "goal" "act").rating = 9 / 2
    ∧ (VoteForAction ratOps (oneGroupServer ["\x7b\"rate\": 9\x7d"]) sampleParseJSON
        (emptyVotesCache ℚ) "goal" "act").rating = 9
    ∧ (VoteForAction ops (oneGroupServer ["", "", "", "", ""])
        (fun _ => .ok { Thought := "", Criticism := "", Feedback := "", Rate := .nil })
        (emptyVotesCache F32) initialGoal actionDescription).cache actionDescription
      = some (ops.div
          (ops.add (ops.add (ops.add (ops.add (ops.add (ops.ofInt 0) (ops.ofInt 0))
            (ops.ofInt 0)) (ops.ofInt 0)) (ops.ofInt 0)) (ops.ofInt 0))
          (ops.ofInt 5)) := by
  refine ⟨rfl, rfl, rfl, rfl, by decide, ?_, ?_, ?_⟩
  · simp [VoteForAction, oneGroupServer, emptyVotesCache, voteGroups, voteChoice,
      VoteTally.count, sampleParseJSON, sampleVotes, List.lookup, ratOps]
  · simp [VoteForAction, oneGroupServer, emptyVotesCache, voteGroups, voteChoice,
      VoteTally.count, sampleParseJSON, sampleVotes, List.lookup, ratOps]
  · simp [VoteForAction, oneGroupServer, emptyVotesCache, voteGroups, voteChoice,
      VoteTally.count, VotesCache.set]

/-- C9. Vote cache round trip. If a call on a cache miss gets a response with at least
one completion group, accepts at least 5 ratings and returns `r`, then after any
sequence of further calls of `VoteForAction`, a call with the same action description,
for any goal, any server and any parser, returns `r` with no error and hands no request
to the server; and any call whose action description is a key of the cache returns the
cached rating with no error, no request and an unchanged cache. -/
theorem VoteForAction_cache_round_trip {F32 F64 : Type} (ops : FloatOps F32 F64)
    (RunRequest : ClientRequest → Except String ServerResponse)
    (ParseJSON : String → Except String (votersResponse F32 F64))
    (cache : VotesCache F32) (initialGoal actionDescription : String)
    (serverResponse : ServerResponse)
    (hmiss : cache actionDescription = none)
    (hrun : RunRequest (voteRequest initialGoal actionDescription) = .ok serverResponse)
    (hgroups : serverResponse.GetCompletionResponse.length > 0)
    (hquorum : 5 ≤ (voteTally ops ParseJSON serverResponse).numberOfVotes) :
    let first := VoteForAction ops RunRequest ParseJSON cache initialGoal actionDescription
    first.err = none
    ∧ first.dispatched = [voteRequest initialGoal actionDescription]
    ∧ (∀ (between : List (VoteCall F32 F64))
        (RunRequest2 : ClientRequest → Except String ServerResponse)
        (ParseJSON2 : String → Except String (votersResponse F32 F64)) (goal2 : String),
        let later := VoteForAction ops RunRequest2 ParseJSON2
          (runVoteCalls ops first.cache between) goal2 actionDescription
        later.rating = first.rating ∧ later.err = none ∧ later.dispatched = [])
    ∧ (∀ (c : VotesCache F32) (key : String) (rating : F32)
        (RunRequest2 : ClientRequest → Except String ServerResponse)
        (ParseJSON2 : String → Except String (votersResponse F32 F64)) (goal2 : String),
        c key = some rating →
        let hit := VoteForAction ops RunRequest2 ParseJSON2 c goal2 key
        hit.rating = rating ∧ hit.err = none ∧ hit.dispatched = [] ∧ hit.cache = c) := by
  intro first
  have hrunEq := VoteForAction_miss ops RunRequest ParseJSON cache initialGoal
    actionDescription serverResponse hmiss hrun hgroups
  have hstored : first.cache actionDescription = some first.rating := by
    simp only [first]
    rw [hrunEq]
    simp [hquorum, VotesCache.set]
  refine ⟨?_, ?_, ?_, ?_⟩
  · simp only [first]; rw [hrunEq]
  · simp only [first]; rw [hrunEq]
  · intro between RunRequest2 ParseJSON2 goal2 later
    have hkept := runVoteCalls_keeps_entries ops between first.cache actionDescription
      first.rating hstored
    have hhit := VoteForAction_hit ops RunRequest2 ParseJSON2
      (runVoteCalls ops first.cache between) goal2 actionDescription first.rating hkept
    simp only [later]
    rw [hhit]
    exact ⟨rfl, rfl, rfl⟩
  · intro c key rating RunRequest2 ParseJSON2 goal2 hkey hit
    have hhit := VoteForAction_hit ops RunRequest2 ParseJSON2 c goal2 key rating hkey
    simp only [hit]
    rw [hhit]
    exact ⟨rfl, rfl, rfl, rfl⟩

/-- C9 on the five ratings of the specification: the hypotheses hold, and a second call
with the same action description, another goal and a server that fails returns the
first rating without a request. -/
theorem VoteForAction_cache_round_trip_witness :
    emptyVotesCache ℚ "open the door" = none
    ∧ oneGroupServer fiveValidChoices (voteRequest "leave the room" "open the door")
      = .ok { CorrelationId := "corr-1",
              GetCompletionResponse := [some { Choices := fiveValidChoices }] }
    ∧ ([some { Choices := fiveValidChoices }] : List (Option GetCompletionResponse)).length > 0
    ∧ 5 ≤ (voteTally ratOps sampleParseJSON
        { CorrelationId := "corr-1",
          GetCompletionResponse := [some { Choices := fiveValidChoices }] }).numberOfVotes
    ∧ (VoteForAction ratOps (fun _ => .error "connection refused") sampleParseJSON
        (VoteForAction ratOps (oneGroupServer fiveValidChoices) sampleParseJSON
          (emptyVotesCache ℚ) "leave the room" "open the door").cache
        "another goal" "open the door").dispatched = [] :=
  ⟨rfl, rfl, by decide, by decide,
    ((VoteForAction_cache_round_trip ratOps (oneGroupServer fiveValidChoices) sampleParseJSON
      (emptyVotesCache ℚ) "leave the room" "open the door"
      { CorrelationId := "corr-1", GetCompletionResponse := [some { Choices := fiveValidChoices }] }
      rfl rfl (by decide) (by decide)).2.2.1 [] (fun _ => .error "connection refused")
      sampleParseJSON "another goal").2.2⟩

/-- C10. For every string `s` that ends in ".gguf" and contains at most one "/", the
split has fewer than three segments and `parseModelName s` is the last segment without
its trailing ".gguf": it contains no "/", it is `s` without the extension when `s` has no
"/", and it is the text after the "/" without the extension when `s` is `dir/file`. -/
theorem parseModelName_fewer_than_three_segments (s : String) (hs : strings.HasSuffix s ".gguf" = true)
    (h1 : s.data.count '/' ≤ 1) :
    (strings.Split s '/').length < 3
    ∧ parseModelName s ++ ".gguf" = lastPart (strings.Split s '/')
    ∧ '/' ∉ (parseModelName s).data
    ∧ ('/' ∉ s.data → parseModelName s ++ ".gguf" = s)
    ∧ (∀ dir file : String, s = dir ++ "/" ++ file → parseModelName s ++ ".gguf" = file)
    ∧ (∀ stem : String, s = stem ++ ".gguf" → '/' ∉ stem.data → parseModelName s = stem) := by
  have hsuf : ".gguf".data <:+ s.data := (hasSuffix_iff _ _).1 hs
  have hlen : (strings.splitChars '/' s.data).length ≤ 2 := by
    rw [strings.length_splitChars]; omega
  have hjoin := strings.joinChars_splitChars '/' s.data
  have hmem := strings.not_mem_of_mem_splitChars '/' s.data
  -- the candidate name is the last part in every branch
  have key : ∃ last : String, lastPart (strings.Split s '/') = last
      ∧ ".gguf".data <:+ last.data ∧ '/' ∉ last.data
      ∧ (if strings.Contains s '/' then
            (if (strings.Split s '/').length > 2 then
              sliceTo (strings.Join ((strings.Split s '/').drop ((strings.Split s '/').length - 3)) '/')
                (len (strings.Join ((strings.Split s '/').drop ((strings.Split s '/').length - 3)) '/')
                  - len (lastPart (strings.Split s '/')))
            else lastPart (strings.Split s '/'))
          else s) = last
      ∧ ('/' ∉ s.data → last = s)
      ∧ (∀ dir file : String, s = dir ++ "/" ++ file → last = file) := by
    rcases hsp : strings.splitChars '/' s.data with _ | ⟨x, _ | ⟨y, _ | ⟨z, zs⟩⟩⟩
    · exact absurd hsp (strings.splitChars_ne_nil _ _)
    · rw [hsp] at hjoin hmem
      simp only [strings.joinChars] at hjoin
      subst hjoin
      have hSplit : strings.Split s '/' = [s] := by simp [strings.Split, hsp]
      have hno : '/' ∉ s.data := hmem s.data (by simp)
      have hc : strings.Contains s '/' = false := by
        rw [Bool.eq_false_iff, Ne, contains_iff]; exact hno
      refine ⟨s, by simp [hSplit, lastPart], hsuf, hno, by simp [hc], fun _ => rfl, ?_⟩
      intro dir file h
      exfalso; apply hno; rw [h]; simp [String.data_append]
    · rw [hsp] at hjoin hmem
      simp only [strings.joinChars] at hjoin
      have hSplit : strings.Split s '/' = [String.mk x, String.mk y] := by
        simp [strings.Split, hsp]
      have hyno : '/' ∉ y := hmem y (by simp)
      have hin : '/' ∈ s.data := by rw [← hjoin]; simp
      have hc : strings.Contains s '/' = true := (contains_iff _ _).2 hin
      refine ⟨String.mk y, by simp [hSplit, lastPart],
        suffix_after_sep _ x y '/' (by decide) (hjoin ▸ hsuf), hyno,
        by simp [hc, hSplit, lastPart], fun hno => absurd hin hno, ?_⟩
      intro dir file h
      have hd : s.data = dir.data ++ '/' :: file.data := by rw [h]; simp [String.data_append]
      have hcnt : dir.data.count '/' + (1 + file.data.count '/') ≤ 1 := by
        have := h1
        rw [hd, List.count_append, List.count_cons_self] at this
        omega
      have hdno : '/' ∉ dir.data := List.count_eq_zero.1 (by omega)
      have hfno : '/' ∉ file.data := List.count_eq_zero.1 (by omega)
      have hsp2 : strings.splitChars '/' s.data = [dir.data, file.data] := by
        rw [hd, strings.splitChars_append_sep _ _ _ hdno, strings.splitChars_of_not_mem _ _ hfno]
      rw [hsp] at hsp2
      simp only [List.cons.injEq, and_true] at hsp2
      apply String.ext
      exact hsp2.2
    · rw [hsp] at hlen; simp at hlen
  obtain ⟨last, hlast, hlsuf, hlno, hcand, hbare, hdir⟩ := key
  have hstrip := strip_candidate last hlsuf hlno
  have hpm : parseModelName s =
      (let modelName : String :=
        if strings.HasSuffix last ".gguf" then sliceTo last (len last - 5) else last
       if strings.HasSuffix modelName "/" then sliceTo modelName (len modelName - 1)
       else modelName) := by
    unfold parseModelName
    simp only [hs, if_true]
    rw [hcand]
  rw [hpm]
  refine ⟨?_, ?_, hstrip.2, ?_, ?_, ?_⟩
  · simp only [strings.Split, List.length_map]; omega
  · rw [hlast]; exact hstrip.1
  · intro hno; rw [hstrip.1]; exact hbare hno
  · intro dir file h; rw [hstrip.1]; exact hdir dir file h
  · intro stem hstem hno
    have hnos : '/' ∉ s.data := by
      rw [hstem, String.data_append]
      intro hm
      rcases List.mem_append.1 hm with hm | hm
      · exact hno hm
      · exact absurd hm (by decide)
    have h3 := (hstrip.1.trans (hbare hnos)).trans hstem
    apply String.ext
    have h4 := congrArg String.data h3
    rw [String.data_append, String.data_append] at h4
    exact List.append_cancel_right h4

/-- C10 at a bare file name: the hypotheses hold and the stem comes back. -/
theorem parseModelName_fewer_than_three_segments_witness :
    strings.HasSuffix "dolphin-2.2.1-mistral-7b.Q6_K.gguf" ".gguf" = true
    ∧ "dolphin-2.2.1-mistral-7b.Q6_K.gguf".data.count '/' ≤ 1
    ∧ parseModelName "dolphin-2.2.1-mistral-7b.Q6_K.gguf" ++ ".gguf"
      = "dolphin-2.2.1-mistral-7b.Q6_K.gguf" :=
  ⟨by decide, by decide,
    (parseModelName_fewer_than_three_segments "dolphin-2.2.1-mistral-7b.Q6_K.gguf"
      (by decide) (by decide)).2.2.2.1 (by decide)⟩

/-- C11. For every string `s` that does not end in ".gguf", `parseModelName s` is `s`. -/
theorem parseModelName_without_extension (s : String)
    (h : strings.HasSuffix s ".gguf" = false) : parseModelName s = s := by
  unfold parseModelName
  rw [if_neg]
  rw [h]
  exact Bool.false_ne_true

/-- C11 on the empty string, on a string that ends in a separator, on a path without
the extension and on a name that has the extension in the middle. -/
theorem parseModelName_without_extension_witness :
    strings.HasSuffix "" ".gguf" = false ∧ parseModelName "" = ""
    ∧ parseModelName "models/TheBloke/" = "models/TheBloke/"
    ∧ parseModelName "/models/TheBloke/dolphin-GGUF" = "/models/TheBloke/dolphin-GGUF"
    ∧ parseModelName "dolphin.gguf.bak" = "dolphin.gguf.bak" :=
  ⟨by decide, parseModelName_without_extension "" (by decide),
    parseModelName_without_extension "models/TheBloke/" (by decide),
    parseModelName_without_extension "/models/TheBloke/dolphin-GGUF" (by decide),
    parseModelName_without_extension "dolphin.gguf.bak" (by decide)⟩


/-- C12, counterexample. `parseModelName` is not idempotent: a file name with the
extension twice loses one extension per pass; and for a reported model that lies in a
directory named with the extension, the canary vector carries the name
"TheBloke/dolphin.gguf" while the second normalization in `StartInferenceEngine` writes
"dolphin" into `engine.Models`. -/
theorem parseModelName_not_idempotent :
    parseModelName "dolphin.Q6_K.gguf.gguf" = "dolphin.Q6_K.gguf"
    ∧ parseModelName (parseModelName "dolphin.Q6_K.gguf.gguf") = "dolphin.Q6_K"
    ∧ parseModelName (parseModelName "dolphin.Q6_K.gguf.gguf")
      ≠ parseModelName "dolphin.Q6_K.gguf.gguf"
    ∧ parseModelName "/models/TheBloke/dolphin.gguf/dolphin.Q6_K.gguf" = "TheBloke/dolphin.gguf"
    ∧ parseModelName "TheBloke/dolphin.gguf" = "dolphin"
    ∧ (StartInferenceEngine ggufDirectoryTransport completionSucceeds sampleEngine).cEmb
      = some [{ VecF64 := [1/2, 1/4], Model := some "TheBloke/dolphin.gguf" }]
    ∧ (StartInferenceEngine ggufDirectoryTransport completionSucceeds sampleEngine).engine.Models
      = ["dolphin"]
    ∧ ¬ (∀ s : String, parseModelName (parseModelName s) = parseModelName s) := by
  refine ⟨by decide, by decide, by decide, by decide, by decide, rfl, by decide, ?_⟩
  intro h
  exact absurd (h "dolphin.Q6_K.gguf.gguf") (by decide)

/-- C12, as amended. For every string `s`, normalizing the normalized name again gives
the same name if and only if the normalized name does not end in ".gguf". When it does
not, and the canary embeddings call of `StartInferenceEngine` returned a first vector
that carries the name `parseModelName s`, the second normalization writes exactly that
name: `engine.Models` is the list the completion call left with that name overwritten
or appended, and it contains the name the vector carries. -/
theorem parseModelName_idempotent_iff_no_extension_left {F64 : Type} (s : String)
    (net : Transport F64)
    (RunCompletionRequest :
      RemoteInferenceEngine → List JobQueueTask → RemoteInferenceEngine × Option String)
    (engine : RemoteInferenceEngine) :
    (parseModelName (parseModelName s) = parseModelName s ↔
      strings.HasSuffix (parseModelName s) ".gguf" = false)
    ∧ (strings.HasSuffix (parseModelName s) ".gguf" = false →
        ∀ (first : Vector F64) (rest : List (Vector F64)),
          (StartInferenceEngine net RunCompletionRequest engine).cEmb = some (first :: rest) →
          first.Model = some (parseModelName s) →
          (StartInferenceEngine net RunCompletionRequest engine).engine.Models =
            upsertModel (parseModelName s)
              (RunCompletionRequest engine [canaryCompletionTask]).1.Models
          ∧ parseModelName s ∈
            (StartInferenceEngine net RunCompletionRequest engine).engine.Models) := by
  have hsame : ∀ t : String, strings.HasSuffix t ".gguf" = false → parseModelName t = t := by
    intro t ht
    unfold parseModelName
    rw [if_neg]
    rw [ht]
    exact Bool.false_ne_true
  constructor
  · constructor
    · intro hidem
      cases hsuf : strings.HasSuffix (parseModelName s) ".gguf" with
      | false => rfl
      | true =>
        have hlt := parseModelName_shorter (parseModelName s) hsuf
        rw [hidem] at hlt
        exact absurd hlt (lt_irrefl _)
    · exact hsame (parseModelName s)
  · intro hno first rest hcEmb hmodel
    have hmodels := StartInferenceEngine_models net RunCompletionRequest engine first rest
      (parseModelName s) hcEmb hmodel
    rw [hsame (parseModelName s) hno] at hmodels
    refine ⟨hmodels, ?_⟩
    rw [hmodels]
    exact mem_upsertModel _ _

/-- C12 as amended, on a reported model path whose directories do not carry the
extension: the normalized name has no extension left, the second pass keeps it, and the
bootstrap writes into `engine.Models` the name the canary vector carries. -/
theorem parseModelName_idempotent_iff_no_extension_left_witness :
    strings.HasSuffix (parseModelName "/models/TheBloke/dolphin-GGUF/dolphin.Q6_K.gguf")
      ".gguf" = false
    ∧ parseModelName (parseModelName "/models/TheBloke/dolphin-GGUF/dolphin.Q6_K.gguf")
      = parseModelName "/models/TheBloke/dolphin-GGUF/dolphin.Q6_K.gguf"
    ∧ (StartInferenceEngine twoEntryTransport completionSucceeds sampleEngine).cEmb
      = some [{ VecF64 := [1/2, 1/4], Model := some "TheBloke/dolphin-GGUF" }]
    ∧ (StartInferenceEngine twoEntryTransport completionSucceeds sampleEngine).engine.Models
      = ["TheBloke/dolphin-GGUF"] :=
  ⟨by decide,
    (parseModelName_idempotent_iff_no_extension_left
      "/models/TheBloke/dolphin-GGUF/dolphin.Q6_K.gguf"
      twoEntryTransport completionSucceeds sampleEngine).1.2 (by decide),
    rfl,
    ((parseModelName_idempotent_iff_no_extension_left
      "/models/TheBloke/dolphin-GGUF/dolphin.Q6_K.gguf"
      twoEntryTransport completionSucceeds sampleEngine).2 (by decide)
      { VecF64 := [1/2, 1/4], Model := some "TheBloke/dolphin-GGUF" } [] rfl
      (congrArg some (by decide))).1.trans (by decide)⟩

end AgentOS
